import Mathlib

/-!
Verification of the natural-language specification of the
`02_UTS_Praktikum_PI` information-retrieval system against its Python
source.  Strings are embedded as `List Char` (ASCII-faithful), machine
floats as exact rationals, and the external libraries (Sastrawi stemmer,
Sastrawi stopword remover, NLTK Porter stemmer) as function parameters,
since no claim depends on their internals.  CountVectorizer and the
argsort-based top-N selection of `main.py` are embedded from their
documented semantics.  Numpy's default argsort (introsort) is a plain —
stable — insertion sort on arrays of at most 16 elements but is
documented as not stable in general; the embedding uses the stable
ascending sort, and every theorem that asserts a tie order is
restricted to corpora of at most 16 documents, where that model is
provably the program's behaviour.
-/

/-- Python's whitespace class for the ASCII range (the class matched by
the regexes' backslash-s): space, tab, newline, carriage return,
vertical tab, form feed. -/
def isPyWs (c : Char) : Bool :=
  c == ' ' || c == '\t' || c == '\n' || c == '\r' || c == '\x0b' || c == '\x0c'

/-- The character class a-z (lowercase ASCII letters). -/
def isLowerAZ (c : Char) : Bool :=
  decide ('a' ≤ c ∧ c ≤ 'z')

/-- The character class A-Z (uppercase ASCII letters). -/
def isUpperAZ (c : Char) : Bool :=
  decide ('A' ≤ c ∧ c ≤ 'Z')

/-- The character class 0-9 (ASCII digits). -/
def isDigit09 (c : Char) : Bool :=
  decide ('0' ≤ c ∧ c ≤ '9')

/-- An ASCII letter, modelling Python's `str.isalpha` character test on
the ASCII inputs the pipeline produces. -/
def isAlphaCh (c : Char) : Bool :=
  isLowerAZ c || isUpperAZ c

/-- A regex word character (backslash-w) on ASCII input:
letters, digits or underscore. -/
def isWordCh (c : Char) : Bool :=
  isLowerAZ c || isUpperAZ c || isDigit09 c || c == '_'

/-- ASCII case folding of one character, modelling Python's `str.lower`
on the ASCII range. -/
def asciiLower (c : Char) : Char :=
  if isUpperAZ c then Char.ofNat (c.toNat + 32) else c

/-- Python's `str.lower` over a whole string. -/
def lowerStr (s : List Char) : List Char :=
  s.map asciiLower

/-! ### Noise predicates (`_is_noise` of `kompas.py`, `tempo.py`) -/

/-- The regex `[aeiou]` searched anywhere in the token. -/
def hasVowel (t : List Char) : Bool :=
  t.any (fun c => c == 'a' || c == 'e' || c == 'i' || c == 'o' || c == 'u')

/-- The regex `(.)\1{2,}` searched anywhere in the token: some character
occurs at least three times consecutively. -/
def hasTriple : List Char → Bool
  | a :: b :: c :: rest => (a == b && b == c) || hasTriple (b :: c :: rest)
  | _ => false

/-- The regex `^\d+$`: a nonempty all-digit token. -/
def digitsOnly (t : List Char) : Bool :=
  !t.isEmpty && t.all isDigit09

/-- Python's `str.isalpha` on a token (ASCII model): nonempty and all
letters. -/
def pyIsAlpha (t : List Char) : Bool :=
  !t.isEmpty && t.all isAlphaCh

/-- The function `_is_noise` of `src/preprocessing/kompas.py` (lines 36-42): too
short, OR no vowel anywhere (no alphabetic guard in the source), OR a
triple repeat, OR digits only. -/
def kompas_is_noise (minLen : Nat) (w : List Char) : Bool :=
  decide (w.length < minLen) || !hasVowel w || hasTriple w || digitsOnly w

/-- The function `_is_noise` of `src/preprocessing/tempo.py` (lines 48-56): too
short, OR (alphabetic AND no vowel), OR a triple repeat.  There is no
digit-only clause: Tempo's policy keeps numeric tokens. -/
def tempo_is_noise (minLen : Nat) (t : List Char) : Bool :=
  if t.length < minLen then true
  else if pyIsAlpha t && !hasVowel t then true
  else if hasTriple t then true
  else false

/-- The noise formula exactly as the spec states it: length below 3, or
(alphabetic and vowel-free), or a triple repeat, or (digits only and the
corpus policy discards digit-only tokens). -/
def specIsNoise (policyDropsDigits : Bool) (t : List Char) : Bool :=
  decide (t.length < 3) || (pyIsAlpha t && !hasVowel t) || hasTriple t ||
    (digitsOnly t && policyDropsDigits)

/-- The amended kompas formula: identical to the spec's except that the
no-vowel test applies to every token, not only alphabetic ones. -/
def specIsNoiseUnguarded (t : List Char) : Bool :=
  decide (t.length < 3) || !hasVowel t || hasTriple t || digitsOnly t

/-! ### Hybrid stemmer (`_stem_hybrid` of `kompas.py`, `mojok.py`) -/

/-- The regex `^[a-z]+$`: a nonempty token of lowercase ASCII letters
only (the "looks English" test). -/
def isEnWord (t : List Char) : Bool :=
  !t.isEmpty && t.all isLowerAZ

/-- Python's `tok.endswith(("ing","ed","tion","s","es","ers","ies"))`:
the token ends with at least one suffix of the fixed set. -/
def endsWithAnySuffix (t : List Char) : Bool :=
  [['i','n','g'], ['e','d'], ['t','i','o','n'], ['s'], ['e','s'],
   ['e','r','s'], ['i','e','s']].any (fun suf => suf.isSuffixOf t)

/-- The function `_stem_hybrid` of `src/preprocessing/kompas.py` (lines 44-53) and
`src/preprocessing/mojok.py` (lines 62-70), identical in both files.
The two external stemmers (Sastrawi, Porter) are passed as functions;
the `lru_cache` memoisation does not change the computed value. -/
def stem_hybrid (idStem enStem : List Char → List Char) (tok : List Char) :
    List Char :=
  let sId := idStem tok
  if sId ≠ tok then sId
  else if isEnWord tok && endsWithAnySuffix tok then enStem tok
  else tok

/-- The stemmer contract exactly as the spec words it: invoke the
primary capability; if the output differs from the input return it;
otherwise, if the token consists solely of lowercase primary-alphabet
characters and ends with one of the fixed suffixes, return the secondary
capability's output; otherwise return the token unchanged. -/
def specStemHybrid (primary secondary : List Char → List Char)
    (t : List Char) : List Char :=
  if primary t = t then
    if isEnWord t then
      if endsWithAnySuffix t then secondary t else t
    else t
  else primary t

/-! ### Theorems for C5 and C6 -/

/-- C5: the claim's formula (no-vowel test only for alphabetic tokens)
disagrees with `_is_noise` of `kompas.py` on the token "b2b4": the
source classifies it as noise (it has no vowel), the spec formula does
not (it is neither alphabetic nor digits-only). -/
theorem kompas_is_noise_guard_counterexample :
    kompas_is_noise 3 ['b', '2', 'b', '4'] = true ∧
    specIsNoise true ['b', '2', 'b', '4'] = false := by
  constructor <;> decide

/-- C5 (amended): `tempo.py`'s noise predicate satisfies the spec's
formula exactly (digit-only clause absent, vowel test guarded by the
alphabetic check), while `kompas.py`'s satisfies the formula with the
no-vowel test applied to every token, alphabetic or not. -/
theorem is_noise_characterization (t : List Char) :
    tempo_is_noise 3 t = specIsNoise false t ∧
    kompas_is_noise 3 t = specIsNoiseUnguarded t := by
  constructor
  · unfold tempo_is_noise specIsNoise
    by_cases h1 : t.length < 3 <;>
      by_cases h2 : (pyIsAlpha t && !hasVowel t) = true <;>
        by_cases h3 : hasTriple t = true <;>
          simp [h1, h2, h3]
  · rfl

/-- C6: `_stem_hybrid` realises the spec's three-case contract for every
choice of primary and secondary stemming capability and every token. -/
theorem stem_hybrid_spec (idStem enStem : List Char → List Char)
    (tok : List Char) :
    stem_hybrid idStem enStem tok = specStemHybrid idStem enStem tok := by
  unfold stem_hybrid specStemHybrid
  by_cases h : idStem tok = tok
  · simp only [h, ite_true, ne_eq, not_true_eq_false, if_false]
    by_cases h1 : isEnWord tok <;> by_cases h2 : endsWithAnySuffix tok <;>
      simp [h1, h2]
  · simp [h]

/-! ### Whitespace splitting and the normalizers -/

/-- One step of segment splitting: a character satisfying `p` extends
the current (front) segment, any other character closes it and opens a
new empty one. -/
def splitSegStep (p : Char → Bool) (c : Char) (acc : List (List Char)) :
    List (List Char) :=
  if p c then (c :: acc.headD []) :: acc.tail else [] :: acc

/-- The segments of `s` between separator characters (characters not
satisfying `p`), empty segments included. -/
def splitSegs (p : Char → Bool) (s : List Char) : List (List Char) :=
  s.foldr (splitSegStep p) [[]]

/-- Maximal runs of characters satisfying `p`, in order; characters not
satisfying `p` act as separators.  `splitRuns (fun c => !isPyWs c)`
models Python's `str.split()`; `splitRuns isWordCh` models a regex
word-run scan. -/
def splitRuns (p : Char → Bool) (s : List Char) : List (List Char) :=
  (splitSegs p s).filter (fun w => !w.isEmpty)

/-- Python's `str.split()` (split on whitespace, dropping empty
fields). -/
def splitWs (s : List Char) : List (List Char) :=
  splitRuns (fun c => !isPyWs c) s

/-- Join a word list with single spaces (`' '.join(words)`). -/
def joinSpace : List (List Char) → List Char
  | [] => []
  | [w] => w
  | w :: x :: ws => w ++ ' ' :: joinSpace (x :: ws)

/-- The composite of the regexes' final steps: collapse every whitespace
run to one space and strip the ends.  This equals Python's
`_MULTISP.sub(" ", t).strip()` and also `' '.join(t.split())`. -/
def collapseWs (s : List Char) : List Char :=
  joinSpace (splitWs s)

/-- Attempt to finish a URL match whose fixed prefix of length `k` has
already been recognised at the head of `cs`: the regex still demands at
least one non-whitespace character, then consumes the maximal
non-whitespace run. -/
def matchTail (k : Nat) (cs : List Char) : Option (List Char) :=
  match cs.drop k with
  | [] => none
  | d :: ds => if isPyWs d then none else some (ds.dropWhile (fun c => !isPyWs c))

/-- One attempted match of `_URL_RE` (the regex
`https?://\S+|www\.\S+`) at the current position, on already-lowercased
input; returns the remainder after the match when it succeeds. -/
def matchURL (cs : List Char) : Option (List Char) :=
  if ['h','t','t','p','s',':','/','/'].isPrefixOf cs then matchTail 8 cs
  else if ['h','t','t','p',':','/','/'].isPrefixOf cs then matchTail 7 cs
  else if ['w','w','w','.'].isPrefixOf cs then matchTail 4 cs
  else none

theorem isPrefixOf_length_le :
    ∀ {p l : List Char}, p.isPrefixOf l = true → p.length ≤ l.length
  | [], l, _ => by simp
  | a :: p, [], h => by simp [List.isPrefixOf] at h
  | a :: p, b :: l, h => by
    rw [List.isPrefixOf, Bool.and_eq_true] at h
    simpa using Nat.succ_le_succ (isPrefixOf_length_le h.2)

theorem isPrefixOf_mem :
    ∀ {p l : List Char} {c : Char}, p.isPrefixOf l = true → c ∈ p → c ∈ l
  | [], l, c, _, hc => by simp at hc
  | a :: p, [], c, h, _ => by simp [List.isPrefixOf] at h
  | a :: p, b :: l, c, h, hc => by
    rw [List.isPrefixOf, Bool.and_eq_true] at h
    rcases List.mem_cons.mp hc with hc | hc
    · subst hc
      rw [show c = b by simpa using h.1]
      exact List.mem_cons_self _ _
    · exact List.mem_cons_of_mem _ (isPrefixOf_mem h.2 hc)

theorem matchTail_length {k : Nat} {cs r : List Char}
    (h : matchTail k cs = some r) : r.length < cs.length := by
  unfold matchTail at h
  cases hd : cs.drop k with
  | nil => rw [hd] at h; exact absurd h (by simp)
  | cons d ds =>
    rw [hd] at h
    by_cases hw : isPyWs d = true
    · simp [hw] at h
    · simp only [hw, Bool.false_eq_true, if_false, Option.some.injEq] at h
      subst h
      have h1 := (List.dropWhile_sublist (l := ds)
        (p := fun c => !isPyWs c)).length_le
      have h2 : (cs.drop k).length ≤ cs.length :=
        (List.drop_sublist k cs).length_le
      have h3 : (cs.drop k).length = ds.length + 1 := by simp [hd]
      omega

theorem matchURL_length {cs r : List Char} (h : matchURL cs = some r) :
    r.length < cs.length := by
  unfold matchURL at h
  split at h
  · exact matchTail_length h
  · split at h
    · exact matchTail_length h
    · split at h
      · exact matchTail_length h
      · exact absurd h (by simp)

/-- The substitution `_URL_RE.sub(" ", t)`: scan left to right, replace each
non-overlapping leftmost match by a single space. -/
def urlSub : List Char → List Char
  | [] => []
  | c :: cs =>
    match h : matchURL (c :: cs) with
    | some rest => ' ' :: urlSub rest
    | none => c :: urlSub cs
termination_by l => l.length
decreasing_by
  · exact matchURL_length h
  · simp [List.length_cons]

/-- Whether the mention regex `@[\w_]+` matches at the head of the
list (the character after the `@` must be a word character). -/
def headIsWord : List Char → Bool
  | [] => false
  | d :: _ => isWordCh d

/-- The substitution `_MENTION.sub(" ", t)`: replace each `@`-plus-word-run by a
space. -/
def mentionSub : List Char → List Char
  | [] => []
  | c :: cs =>
    if c == '@' && headIsWord cs then
      ' ' :: mentionSub (cs.dropWhile isWordCh)
    else c :: mentionSub cs
termination_by l => l.length
decreasing_by
  · simp only [List.length_cons]
    exact Nat.lt_succ_of_le (List.dropWhile_sublist _).length_le
  · simp [List.length_cons]

/-- The substitution `_HASHTAG.sub(" ", t)` — the pattern is the single character `#`,
so the substitution is a character map. -/
def hashtagSub (s : List Char) : List Char :=
  s.map (fun c => if c == '#' then ' ' else c)

/-- Python's `t.replace(a, b)` for single characters. -/
def charReplace (a b : Char) (s : List Char) : List Char :=
  s.map (fun c => if c == a then b else c)

/-- The character-class substitution `[^ allowed \s] -> " "` used by the
corpus normalizers (every character neither allowed nor whitespace
becomes a space). -/
def nonAlphaToSpace (allowed : Char → Bool) (s : List Char) : List Char :=
  s.map (fun c => if allowed c || isPyWs c then c else ' ')

/-- The function `_normalize` of `src/preprocessing/kompas.py` (lines 27-34): the
`None`/non-string coercion is modelled by the caller passing the coerced
string; then lowercase, URL / mention / hashtag stripping, letters-only
class substitution, whitespace collapse and strip. -/
def kompas_normalize (s : List Char) : List Char :=
  collapseWs (nonAlphaToSpace isLowerAZ
    (hashtagSub (mentionSub (urlSub (lowerStr s)))))

/-- The function `_normalize` of `src/preprocessing/tempo.py` (lines 37-46): same
chain but the class keeps digits (`[^a-z0-9\s]`). -/
def tempo_normalize (s : List Char) : List Char :=
  collapseWs (nonAlphaToSpace (fun c => isLowerAZ c || isDigit09 c)
    (hashtagSub (mentionSub (urlSub (lowerStr s)))))

/-- The function `_normalize` of `src/preprocessing/etd_ugm.py` (lines 75-88):
lowercase, then plain-quote / curly-quote / non-breaking-space / newline
replacement, then the kompas chain (letters only). -/
def etd_ugm_normalize (s : List Char) : List Char :=
  collapseWs (nonAlphaToSpace isLowerAZ
    (hashtagSub (mentionSub (urlSub
      (charReplace '\n' ' ' (charReplace '\xa0' ' '
        (charReplace '”' ' ' (charReplace '“' ' '
          (charReplace '"' ' ' (lowerStr s))))))))))

/-- Whether the lookahead `(?=[A-Z])` holds at the head of the list. -/
def headIsUpper : List Char → Bool
  | [] => false
  | d :: _ => isUpperAZ d

/-- One attempted match of `_ABSTRACT_JOINED` (the regex
`(ABSTRAK|Judul|Latar\s*Belakang)(?=[A-Z])`) at the current position of
`etd_usk.py`: on success returns the matched text and the remainder
(which the lookahead requires to start with an uppercase letter). -/
def matchAbstract (cs : List Char) : Option (List Char × List Char) :=
  if ['A','B','S','T','R','A','K'].isPrefixOf cs then
    let rest := cs.drop 7
    if headIsUpper rest then some (cs.take 7, rest) else none
  else if ['J','u','d','u','l'].isPrefixOf cs then
    let rest := cs.drop 5
    if headIsUpper rest then some (cs.take 5, rest) else none
  else if ['L','a','t','a','r'].isPrefixOf cs then
    if ['B','e','l','a','k','a','n','g'].isPrefixOf
        ((cs.drop 5).dropWhile isPyWs) then
      if headIsUpper (((cs.drop 5).dropWhile isPyWs).drop 8) then
        some (cs.take 5 ++ (cs.drop 5).takeWhile isPyWs ++
          ((cs.drop 5).dropWhile isPyWs).take 8,
          ((cs.drop 5).dropWhile isPyWs).drop 8)
      else none
    else none
  else none

theorem matchAbstract_length {cs m r : List Char}
    (h : matchAbstract cs = some (m, r)) : r.length < cs.length := by
  unfold matchAbstract at h
  split at h
  case isTrue hp =>
    have hlen : 7 ≤ cs.length :=
      isPrefixOf_length_le hp
    by_cases hu : headIsUpper (cs.drop 7) = true
    · simp only [hu, if_true, Option.some.injEq, Prod.mk.injEq] at h
      have : r = cs.drop 7 := h.2.symm
      subst this
      simp only [List.length_drop]
      omega
    · simp [hu] at h
  case isFalse =>
    split at h
    case isTrue hp =>
      have hlen : 5 ≤ cs.length :=
        isPrefixOf_length_le hp
      by_cases hu : headIsUpper (cs.drop 5) = true
      · simp only [hu, if_true, Option.some.injEq, Prod.mk.injEq] at h
        have : r = cs.drop 5 := h.2.symm
        subst this
        simp only [List.length_drop]
        omega
      · simp [hu] at h
    case isFalse =>
      split at h
      case isTrue hp =>
        have hlen : 5 ≤ cs.length :=
          isPrefixOf_length_le hp
        split at h
        case isTrue =>
          by_cases hu :
              headIsUpper (((cs.drop 5).dropWhile isPyWs).drop 8) = true
          · simp only [hu, if_true, Option.some.injEq, Prod.mk.injEq] at h
            have hr : r = ((cs.drop 5).dropWhile isPyWs).drop 8 := h.2.symm
            subst hr
            have h1 : ((cs.drop 5).dropWhile isPyWs).length ≤
                (cs.drop 5).length :=
              (List.dropWhile_sublist (l := cs.drop 5)
                (p := isPyWs)).length_le
            simp only [List.length_drop] at h1 ⊢
            omega
          · simp [hu] at h
        case isFalse => exact absurd h (by simp)
      case isFalse => exact absurd h (by simp)

/-- The substitution `_ABSTRACT_JOINED.sub(r"\1 ", text)` of `etd_usk.py`: each match is
replaced by the matched text followed by one space; scanning resumes
after the match (the lookahead character is not consumed). -/
def abstractSub : List Char → List Char
  | [] => []
  | c :: cs =>
    match h : matchAbstract (c :: cs) with
    | some (m, rest) => m ++ ' ' :: abstractSub rest
    | none => c :: abstractSub cs
termination_by l => l.length
decreasing_by
  · exact matchAbstract_length h
  · simp [List.length_cons]

/-- The function `_normalize` of `src/preprocessing/etd_usk.py` (lines 50-65): the
ABSTRAK/Judul/LatarBelakang de-gluing substitution runs first, on the
still-mixed-case text; then the same chain as `etd_ugm.py`. -/
def etd_usk_normalize (s : List Char) : List Char :=
  collapseWs (nonAlphaToSpace isLowerAZ
    (hashtagSub (mentionSub (urlSub
      (charReplace '\n' ' ' (charReplace '\xa0' ' '
        (charReplace '”' ' ' (charReplace '“' ' '
          (charReplace '"' ' ' (lowerStr (abstractSub s)))))))))))

/-! ### `main.py`'s query preprocessing -/

/-- The deletion `re.sub(r'[^a-z\s]', '', query)` of `main.py` line 34: characters
outside a-z and whitespace are deleted (not replaced by spaces). -/
def stripNonLetters (s : List Char) : List Char :=
  s.filter (fun c => isLowerAZ c || isPyWs c)

/-- The method `preprocess_query` of `src/main.py` (lines 26-45).  The Sastrawi
stopword remover and the Sastrawi stemmer are external collaborators
passed as string functions.  Steps exactly as the source: case folding;
deletion of characters outside a-z/whitespace; stopword removal;
stemming; whitespace collapse.  There is no tokenizer stage other than
the final split/join, no Porter fallback, and no noise filter. -/
def preprocess_query (stopRemove stem : List Char → List Char)
    (query : List Char) : List Char :=
  let q1 := lowerStr query
  let q2 := stripNonLetters q1
  let q3 := stopRemove q2
  let q4 := stem q3
  joinSpace (splitWs q4)

/-! ### Normal form of the corpus normalizers (C7, C10) -/

/-- No two consecutive spaces anywhere in the string. -/
def noDoubleSpace : List Char → Bool
  | a :: b :: r => !(a == ' ' && b == ' ') && noDoubleSpace (b :: r)
  | _ => true

/-- The string does not start with a space (vacuously true when
empty). -/
def headNotSpace : List Char → Bool
  | [] => true
  | c :: _ => !(c == ' ')

/-- The string does not end with a space (vacuously true when
empty). -/
def lastNotSpace (s : List Char) : Bool :=
  match s.getLast? with
  | none => true
  | some c => !(c == ' ')

/-- The output shape C10 claims for the normalizers: every character is
in the corpus's allowed alphabet or is a single separating space, with
no leading, trailing or doubled spaces (and, since no allowed alphabet
contains A-Z, no uppercase letters). -/
def isNormalized (allowed : Char → Bool) (s : List Char) : Bool :=
  s.all (fun c => allowed c || c == ' ') && noDoubleSpace s &&
    headNotSpace s && lastNotSpace s

theorem beq_space_eq_false_of_not_ws {c : Char} (h : isPyWs c = false) :
    (c == ' ') = false := by
  cases hq : c == ' '
  · rfl
  · have : c = ' ' := by simpa using hq
    subst this
    simp [isPyWs] at h

/-- The segment list is never empty. -/
theorem splitSegs_ne_nil (p : Char → Bool) :
    ∀ s : List Char, ∃ w ws, splitSegs p s = w :: ws := by
  intro s
  induction s with
  | nil => exact ⟨[], [], rfl⟩
  | cons a s ih =>
    rcases ih with ⟨w, ws, hw⟩
    unfold splitSegs at hw ⊢
    rw [List.foldr_cons, hw]
    unfold splitSegStep
    by_cases ha : p a = true
    · exact ⟨a :: w, ws, by simp [ha]⟩
    · exact ⟨[], w :: ws, by simp [ha]⟩

/-- Every character of every segment satisfies the predicate and comes
from the input. -/
theorem mem_splitSegs (p : Char → Bool) :
    ∀ s : List Char, ∀ w ∈ splitSegs p s, ∀ c ∈ w, p c = true ∧ c ∈ s := by
  intro s
  induction s with
  | nil =>
    intro w hw c hc
    unfold splitSegs at hw
    simp at hw
    subst hw
    simp at hc
  | cons a s ih =>
    intro w hw c hc
    rcases splitSegs_ne_nil p s with ⟨w0, ws, hs⟩
    rw [show splitSegs p (a :: s) = splitSegStep p a (splitSegs p s) from rfl,
      hs] at hw
    unfold splitSegStep at hw
    by_cases ha : p a = true
    · rw [if_pos ha] at hw
      simp only [List.headD_cons, List.tail_cons] at hw
      rcases List.mem_cons.mp hw with hw | hw
      · subst hw
        rcases List.mem_cons.mp hc with hc | hc
        · subst hc; exact ⟨ha, List.mem_cons_self _ _⟩
        · have := ih w0 (by rw [hs]; exact List.mem_cons_self _ _) c hc
          exact ⟨this.1, List.mem_cons_of_mem _ this.2⟩
      · have := ih w (by rw [hs]; exact List.mem_cons_of_mem _ hw) c hc
        exact ⟨this.1, List.mem_cons_of_mem _ this.2⟩
    · rw [if_neg ha] at hw
      rcases List.mem_cons.mp hw with hw | hw
      · subst hw; simp at hc
      · have := ih w (by rw [hs]; exact hw) c hc
        exact ⟨this.1, List.mem_cons_of_mem _ this.2⟩

/-- Prepending an all-predicate run extends the first segment. -/
theorem splitSegs_all_append {p : Char → Bool} {r w0 : List Char}
    {ws : List (List Char)} (hr : splitSegs p r = w0 :: ws) :
    ∀ w : List Char, (∀ c ∈ w, p c = true) →
      splitSegs p (w ++ r) = (w ++ w0) :: ws := by
  intro w
  induction w with
  | nil => intro _; simpa using hr
  | cons a w' ih =>
    intro hw
    have ha : p a = true := hw a (List.mem_cons_self _ _)
    have ih' := ih (fun c hc => hw c (List.mem_cons_of_mem _ hc))
    unfold splitSegs at ih' ⊢
    rw [List.cons_append, List.foldr_cons, ih']
    unfold splitSegStep
    rw [if_pos ha]
    simp

/-- Every word produced by `splitRuns` is nonempty, consists of
characters satisfying the predicate, and draws its characters from the
input. -/
theorem splitRuns_words (p : Char → Bool) (s : List Char) :
    ∀ w ∈ splitRuns p s, w ≠ [] ∧ ∀ c ∈ w, p c = true ∧ c ∈ s := by
  intro w hw
  unfold splitRuns at hw
  rcases List.mem_filter.mp hw with ⟨hmem, hne⟩
  refine ⟨by simpa using hne, fun c hc => mem_splitSegs p s w hmem c hc⟩

/-- Joining a nonempty-headed word list starts with the first
word. -/
theorem joinSpace_cons (w : List Char) (ws : List (List Char)) :
    ∃ t, joinSpace (w :: ws) = w ++ t := by
  cases ws with
  | nil => exact ⟨[], by simp [joinSpace]⟩
  | cons x ws => exact ⟨' ' :: joinSpace (x :: ws), rfl⟩

theorem joinSpace_mem {c : Char} :
    ∀ {ws : List (List Char)}, c ∈ joinSpace ws →
      c = ' ' ∨ ∃ w ∈ ws, c ∈ w
  | [], h => by simp [joinSpace] at h
  | [w], h => Or.inr ⟨w, by simp, by simpa [joinSpace] using h⟩
  | w :: x :: ws, h => by
    rw [joinSpace] at h
    rcases List.mem_append.mp h with h | h
    · exact Or.inr ⟨w, by simp, h⟩
    · rcases List.mem_cons.mp h with h | h
      · exact Or.inl h
      · rcases joinSpace_mem h with h | ⟨u, hu, hcu⟩
        · exact Or.inl h
        · exact Or.inr ⟨u, List.mem_cons_of_mem _ hu, hcu⟩

theorem noDoubleSpace_word_append {rest : List Char}
    (hr : noDoubleSpace rest = true) (hh : headNotSpace rest = true) :
    ∀ w : List Char, (∀ c ∈ w, (c == ' ') = false) →
      noDoubleSpace (w ++ ' ' :: rest) = true := by
  intro w
  induction w with
  | nil =>
    intro _
    cases rest with
    | nil => rfl
    | cons d r =>
      have hd : (d == ' ') = false := by simpa [headNotSpace] using hh
      simp only [List.nil_append, noDoubleSpace, hd, Bool.and_false,
        Bool.not_false, Bool.true_and]
      exact hr
  | cons a w' ih =>
    intro hw
    have ha : (a == ' ') = false := hw a (List.mem_cons_self _ _)
    have hw' : ∀ c ∈ w', (c == ' ') = false :=
      fun c hc => hw c (List.mem_cons_of_mem _ hc)
    cases w' with
    | nil =>
      simp only [List.cons_append, List.nil_append, noDoubleSpace, ha,
        Bool.false_and, Bool.not_false, Bool.true_and]
      exact ih hw'
    | cons b w'' =>
      have hb : (b == ' ') = false := hw' b (List.mem_cons_self _ _)
      simp only [List.cons_append, noDoubleSpace, ha, Bool.false_and,
        Bool.not_false, Bool.true_and]
      exact ih hw'

theorem headNotSpace_join {ws : List (List Char)}
    (h : ∀ w ∈ ws, w ≠ [] ∧ ∀ c ∈ w, (c == ' ') = false) :
    headNotSpace (joinSpace ws) = true := by
  cases ws with
  | nil => rfl
  | cons w ws =>
    rcases joinSpace_cons w ws with ⟨t, ht⟩
    rcases h w (List.mem_cons_self _ _) with ⟨hne, hch⟩
    cases w with
    | nil => exact absurd rfl hne
    | cons c w' =>
      rw [ht]
      simpa [headNotSpace] using hch c (List.mem_cons_self _ _)

theorem lastNotSpace_join :
    ∀ ws : List (List Char),
      (∀ w ∈ ws, w ≠ [] ∧ ∀ c ∈ w, (c == ' ') = false) →
      lastNotSpace (joinSpace ws) = true
  | [], _ => rfl
  | [w], h => by
    rw [joinSpace]
    unfold lastNotSpace
    cases hl : w.getLast? with
    | none => rfl
    | some c =>
      have : c ∈ w := List.mem_of_mem_getLast? hl
      simpa using (h w (by simp)).2 c this
  | w :: x :: ws, h => by
    rw [joinSpace]
    have hx : joinSpace (x :: ws) ≠ [] := by
      rcases joinSpace_cons x ws with ⟨t, ht⟩
      rcases h x (by simp) with ⟨hne, -⟩
      cases x with
      | nil => exact absurd rfl hne
      | cons c x' => simp [ht]
    have h2 : lastNotSpace (joinSpace (x :: ws)) = true :=
      lastNotSpace_join (x :: ws) (fun u hu => h u (List.mem_cons_of_mem _ hu))
    unfold lastNotSpace at h2 ⊢
    rw [List.getLast?_append_of_ne_nil w
      (show (' ' :: joinSpace (x :: ws)) ≠ [] by simp)]
    rw [show ' ' :: joinSpace (x :: ws) = [' '] ++ joinSpace (x :: ws) from rfl]
    rw [List.getLast?_append_of_ne_nil [' '] hx]
    exact h2

/-- The key output lemma: joining nonempty space-free words with single
spaces yields a string in the claimed normal form, provided every word
character lies in the allowed alphabet. -/
theorem isNormalized_join {allowed : Char → Bool} :
    ∀ ws : List (List Char),
      (∀ w ∈ ws, w ≠ [] ∧ ∀ c ∈ w, allowed c = true ∧ isPyWs c = false) →
      isNormalized allowed (joinSpace ws) = true := by
  intro ws h
  have hsp : ∀ w ∈ ws, w ≠ [] ∧ ∀ c ∈ w, (c == ' ') = false :=
    fun w hw => ⟨(h w hw).1,
      fun c hc => beq_space_eq_false_of_not_ws ((h w hw).2 c hc).2⟩
  unfold isNormalized
  rw [Bool.and_eq_true, Bool.and_eq_true, Bool.and_eq_true]
  refine ⟨⟨⟨?_, ?_⟩, headNotSpace_join hsp⟩, lastNotSpace_join ws hsp⟩
  · rw [List.all_eq_true]
    intro c hc
    rcases joinSpace_mem hc with hc | ⟨w, hw, hcw⟩
    · subst hc; simp
    · simp [((h w hw).2 c hcw).1]
  · clear h
    induction ws with
    | nil => rfl
    | cons w ws ih =>
      cases ws with
      | nil =>
        rw [joinSpace]
        have hw := hsp w (by simp)
        clear hsp ih
        rcases hw with ⟨-, hch⟩
        induction w with
        | nil => rfl
        | cons a w' ihw =>
          cases w' with
          | nil => rfl
          | cons b w'' =>
            have hb : (b == ' ') = false := hch b (by simp)
            simp only [noDoubleSpace, hb, Bool.and_false, Bool.not_false,
              Bool.true_and]
            exact ihw (fun c hc => hch c (List.mem_cons_of_mem _ hc))
      | cons x ws' =>
        rw [joinSpace]
        have hrest : noDoubleSpace (joinSpace (x :: ws')) = true :=
          ih (fun u hu => hsp u (List.mem_cons_of_mem _ hu))
        have hhead : headNotSpace (joinSpace (x :: ws')) = true :=
          headNotSpace_join (fun u hu => hsp u (List.mem_cons_of_mem _ hu))
        exact noDoubleSpace_word_append hrest hhead w
          (fun c hc => (hsp w (by simp)).2 c hc)

theorem takeWhile_append_stop {p : Char → Bool} {x : Char} {r : List Char}
    (hx : p x = false) :
    ∀ w : List Char, (∀ c ∈ w, p c = true) →
      (w ++ x :: r).takeWhile p = w := by
  intro w
  induction w with
  | nil => intro _; simp [List.takeWhile, hx]
  | cons a w' ih =>
    intro h
    have ha : p a = true := h a (by simp)
    simp only [List.cons_append, List.takeWhile_cons, ha, if_true]
    rw [ih (fun c hc => h c (List.mem_cons_of_mem _ hc))]

theorem dropWhile_append_stop {p : Char → Bool} {x : Char} {r : List Char}
    (hx : p x = false) :
    ∀ w : List Char, (∀ c ∈ w, p c = true) →
      (w ++ x :: r).dropWhile p = x :: r := by
  intro w
  induction w with
  | nil => intro _; simp [List.dropWhile, hx]
  | cons a w' ih =>
    intro h
    have ha : p a = true := h a (by simp)
    simp only [List.cons_append, List.dropWhile_cons, ha, if_true]
    exact ih (fun c hc => h c (List.mem_cons_of_mem _ hc))

/-- Splitting on whitespace inverts joining with single spaces, for
nonempty whitespace-free words. -/
theorem splitWs_joinSpace :
    ∀ ws : List (List Char),
      (∀ w ∈ ws, w ≠ [] ∧ ∀ c ∈ w, isPyWs c = false) →
      splitWs (joinSpace ws) = ws
  | [], _ => by rw [joinSpace]; rfl
  | [w], h => by
    rw [joinSpace]
    rcases h w (by simp) with ⟨hne, hch⟩
    have hall : ∀ d ∈ w, (!isPyWs d) = true := fun d hd => by simp [hch d hd]
    unfold splitWs splitRuns
    have hbase : splitSegs (fun c => !isPyWs c) ([] : List Char) = [] :: [] :=
      rfl
    have := splitSegs_all_append hbase w hall
    rw [List.append_nil] at this
    rw [this, List.filter_cons]
    cases w with
    | nil => exact absurd rfl hne
    | cons c w' => rfl
  | w :: x :: ws, h => by
    rw [joinSpace]
    rcases h w (by simp) with ⟨hne, hch⟩
    have hall : ∀ d ∈ w, (!isPyWs d) = true := fun d hd => by simp [hch d hd]
    have hrec := splitWs_joinSpace (x :: ws)
      (fun u hu => h u (List.mem_cons_of_mem _ hu))
    unfold splitWs splitRuns at hrec ⊢
    rcases splitSegs_ne_nil (fun c => !isPyWs c) (joinSpace (x :: ws))
      with ⟨r0, rs, hr⟩
    have hsep : splitSegs (fun c => !isPyWs c)
        (' ' :: joinSpace (x :: ws)) = [] :: r0 :: rs := by
      unfold splitSegs at hr ⊢
      rw [List.foldr_cons, hr]
      unfold splitSegStep
      rw [if_neg (by decide)]
    have := splitSegs_all_append hsep w hall
    rw [this, List.filter_cons]
    have hwkeep : (!w.isEmpty) = true := by
      cases w with
      | nil => exact absurd rfl hne
      | cons c w' => rfl
    rw [if_pos (by simp [hwkeep])]
    rw [hr] at hrec
    rw [← hrec, List.append_nil]

/-- The words of any whitespace split are nonempty and
whitespace-free. -/
theorem splitWs_wordlike (s : List Char) :
    ∀ w ∈ splitWs s, w ≠ [] ∧ ∀ c ∈ w, isPyWs c = false := by
  intro w hw
  rcases splitRuns_words _ s w hw with ⟨hne, hall⟩
  exact ⟨hne, fun c hc => by simpa using (hall c hc).1⟩

/-- Whitespace collapsing is idempotent. -/
theorem collapseWs_collapseWs (s : List Char) :
    collapseWs (collapseWs s) = collapseWs s := by
  unfold collapseWs
  rw [splitWs_joinSpace (splitWs s) (splitWs_wordlike s)]

/-- Characters of a collapsed string: the separating space, or a
non-whitespace character of the input. -/
theorem mem_collapseWs {s : List Char} {c : Char} (h : c ∈ collapseWs s) :
    c = ' ' ∨ (c ∈ s ∧ isPyWs c = false) := by
  unfold collapseWs at h
  rcases joinSpace_mem h with h | ⟨w, hw, hcw⟩
  · exact Or.inl h
  · rcases splitRuns_words _ s w hw with ⟨-, hall⟩
    exact Or.inr ⟨(hall c hcw).2, by simpa using (hall c hcw).1⟩

/-! ### The stages are the identity on already-normalized text -/

theorem beq_eq_false_of_pred {P : Char → Bool} {c d : Char}
    (hc : P c = true) (hd : P d = false) : (c == d) = false := by
  cases hq : c == d
  · rfl
  · have he : c = d := by simpa using hq
    subst he
    rw [hc] at hd
    exact absurd hd (by simp)

theorem allowedOrSpace_ne {A : Char → Bool} {c d : Char}
    (hc : A c = true ∨ c = ' ') (hd : A d = false)
    (hd2 : ((' ' : Char) == d) = false) : (c == d) = false := by
  rcases hc with hc | hc
  · exact beq_eq_false_of_pred hc hd
  · subst hc; exact hd2

theorem isUpperAZ_false_of_lower {c : Char} (h : isLowerAZ c = true) :
    isUpperAZ c = false := by
  unfold isLowerAZ at h
  unfold isUpperAZ
  rw [decide_eq_true_eq] at h
  rw [decide_eq_false_iff_not]
  rintro ⟨-, h2⟩
  exact absurd (le_trans h.1 h2) (by decide)

theorem isUpperAZ_false_of_digit {c : Char} (h : isDigit09 c = true) :
    isUpperAZ c = false := by
  unfold isDigit09 at h
  unfold isUpperAZ
  rw [decide_eq_true_eq] at h
  rw [decide_eq_false_iff_not]
  rintro ⟨h1, -⟩
  exact absurd (le_trans h1 h.2) (by decide)

theorem map_id_of_eq {f : Char → Char} {s : List Char}
    (h : ∀ c ∈ s, f c = c) : s.map f = s := by
  rw [List.map_congr_left (g := id) h, List.map_id]

theorem lowerStr_id {s : List Char} (h : ∀ c ∈ s, isUpperAZ c = false) :
    lowerStr s = s :=
  map_id_of_eq (fun c hc => by simp [asciiLower, h c hc])

theorem charReplace_id {a b : Char} {s : List Char}
    (h : ∀ c ∈ s, (c == a) = false) : charReplace a b s = s :=
  map_id_of_eq (fun c hc => by simp [h c hc])

theorem hashtagSub_id {s : List Char}
    (h : ∀ c ∈ s, (c == '#') = false) : hashtagSub s = s :=
  map_id_of_eq (fun c hc => by simp [h c hc])

theorem nonAlphaToSpace_id {allowed : Char → Bool} {s : List Char}
    (h : ∀ c ∈ s, (allowed c || isPyWs c) = true) :
    nonAlphaToSpace allowed s = s :=
  map_id_of_eq (fun c hc => by simp [nonAlphaToSpace, h c hc])

theorem matchURL_mem {s r : List Char} (h : matchURL s = some r) :
    (':' ∈ s) ∨ ('.' ∈ s) := by
  unfold matchURL at h
  split at h
  case isTrue hp =>
    exact Or.inl (isPrefixOf_mem hp (by decide))
  case isFalse =>
    split at h
    case isTrue hp =>
      exact Or.inl (isPrefixOf_mem hp (by decide))
    case isFalse =>
      split at h
      case isTrue hp =>
        exact Or.inr (isPrefixOf_mem hp (by decide))
      case isFalse => exact absurd h (by simp)

theorem urlSub_id {s : List Char}
    (h : ∀ c ∈ s, (c == ':') = false ∧ (c == '.') = false) : urlSub s = s := by
  induction s using urlSub.induct with
  | case1 => rw [urlSub]
  | case2 c cs rest hm =>
    exfalso
    rcases matchURL_mem hm with hmem | hmem
    · have := (h _ hmem).1; simp at this
    · have := (h _ hmem).2; simp at this
  | case3 c cs hm ih =>
    rw [urlSub, hm]
    rw [ih (fun d hd => h d (List.mem_cons_of_mem _ hd))]

theorem mentionSub_id {s : List Char}
    (h : ∀ c ∈ s, (c == '@') = false) : mentionSub s = s := by
  induction s using mentionSub.induct with
  | case1 => rw [mentionSub]
  | case2 c cs hc =>
    exfalso
    have h1 : (c == '@') = false := h c (List.mem_cons_self _ _)
    rw [Bool.and_eq_true] at hc
    rw [hc.1] at h1
    exact absurd h1 (by simp)
  | case3 c cs hc ih =>
    rw [mentionSub, if_neg (by simp [hc])]
    rw [ih (fun d hd => h d (List.mem_cons_of_mem _ hd))]

theorem matchAbstract_mem {s : List Char} {mr : List Char × List Char}
    (h : matchAbstract s = some mr) :
    ('A' ∈ s) ∨ ('J' ∈ s) ∨ ('L' ∈ s) := by
  unfold matchAbstract at h
  split at h
  case isTrue hp =>
    exact Or.inl (isPrefixOf_mem hp (by decide))
  case isFalse =>
    split at h
    case isTrue hp =>
      exact Or.inr (Or.inl
        (isPrefixOf_mem hp (by decide)))
    case isFalse =>
      split at h
      case isTrue hp =>
        exact Or.inr (Or.inr
          (isPrefixOf_mem hp (by decide)))
      case isFalse => exact absurd h (by simp)

theorem abstractSub_id {s : List Char}
    (h : ∀ c ∈ s, isUpperAZ c = false) : abstractSub s = s := by
  induction s using abstractSub.induct with
  | case1 => rw [abstractSub]
  | case2 c cs m rest hm =>
    exfalso
    rcases matchAbstract_mem hm with hmem | hmem | hmem
    · have := h _ hmem; simp [isUpperAZ] at this
    · have := h _ hmem; simp [isUpperAZ] at this
    · have := h _ hmem; simp [isUpperAZ] at this
  | case3 c cs hm ih =>
    rw [abstractSub, hm]
    rw [ih (fun d hd => h d (List.mem_cons_of_mem _ hd))]

/-! ### The normalizers' output invariant (C10) and idempotence (C7) -/

theorem chars_collapse_nonAlpha {allowed : Char → Bool} {u : List Char} :
    ∀ c ∈ collapseWs (nonAlphaToSpace allowed u),
      allowed c = true ∨ c = ' ' := by
  intro c hc
  rcases mem_collapseWs hc with hc | ⟨hcm, hws⟩
  · exact Or.inr hc
  · left
    rcases List.mem_map.mp hcm with ⟨d, -, hfd⟩
    by_cases hcond : (allowed d || isPyWs d) = true
    · rw [if_pos hcond] at hfd
      subst hfd
      rcases Bool.or_eq_true_iff.mp hcond with h | h
      · exact h
      · rw [h] at hws; exact absurd hws (by simp)
    · rw [if_neg hcond] at hfd
      subst hfd
      simp [isPyWs] at hws

theorem isNormalized_collapse_nonAlpha {allowed : Char → Bool}
    {u : List Char} :
    isNormalized allowed (collapseWs (nonAlphaToSpace allowed u)) = true := by
  unfold collapseWs
  apply isNormalized_join
  intro w hw
  rcases splitRuns_words _ _ w hw with ⟨hne, hall⟩
  refine ⟨hne, fun c hc => ?_⟩
  have hws : isPyWs c = false := by simpa using (hall c hc).1
  have hmem := (hall c hc).2
  rcases List.mem_map.mp hmem with ⟨d, -, hfd⟩
  by_cases hcond : (allowed d || isPyWs d) = true
  · rw [if_pos hcond] at hfd
    subst hfd
    rcases Bool.or_eq_true_iff.mp hcond with h | h
    · exact ⟨h, hws⟩
    · rw [h] at hws; exact absurd hws (by simp)
  · rw [if_neg hcond] at hfd
    subst hfd
    simp [isPyWs] at hws

theorem lower_or_space_chars {u : List Char} :
    ∀ c ∈ collapseWs (nonAlphaToSpace isLowerAZ u),
      isLowerAZ c = true ∨ c = ' ' :=
  chars_collapse_nonAlpha

theorem kompas_normalize_idem (s : List Char) :
    kompas_normalize (kompas_normalize s) = kompas_normalize s := by
  unfold kompas_normalize
  have hc : ∀ c ∈ collapseWs (nonAlphaToSpace isLowerAZ
      (hashtagSub (mentionSub (urlSub (lowerStr s))))),
      isLowerAZ c = true ∨ c = ' ' := chars_collapse_nonAlpha
  rw [lowerStr_id (fun c h => by
    rcases hc c h with h1 | h1
    · exact isUpperAZ_false_of_lower h1
    · subst h1; decide)]
  rw [urlSub_id (fun c h => ⟨allowedOrSpace_ne (hc c h) (by decide) (by decide),
    allowedOrSpace_ne (hc c h) (by decide) (by decide)⟩)]
  rw [mentionSub_id (fun c h => allowedOrSpace_ne (hc c h) (by decide) (by decide))]
  rw [hashtagSub_id (fun c h => allowedOrSpace_ne (hc c h) (by decide) (by decide))]
  rw [nonAlphaToSpace_id (fun c h => by
    rcases hc c h with h1 | h1
    · simp [h1]
    · subst h1; decide)]
  exact collapseWs_collapseWs _

theorem tempo_normalize_idem (s : List Char) :
    tempo_normalize (tempo_normalize s) = tempo_normalize s := by
  unfold tempo_normalize
  have hc : ∀ c ∈ collapseWs (nonAlphaToSpace
      (fun c => isLowerAZ c || isDigit09 c)
      (hashtagSub (mentionSub (urlSub (lowerStr s))))),
      (isLowerAZ c || isDigit09 c) = true ∨ c = ' ' := chars_collapse_nonAlpha
  rw [lowerStr_id (fun c h => by
    rcases hc c h with h1 | h1
    · rcases Bool.or_eq_true_iff.mp h1 with h2 | h2
      · exact isUpperAZ_false_of_lower h2
      · exact isUpperAZ_false_of_digit h2
    · subst h1; decide)]
  rw [urlSub_id (fun c h =>
    ⟨allowedOrSpace_ne (A := fun c => isLowerAZ c || isDigit09 c)
      (hc c h) (by decide) (by decide),
    allowedOrSpace_ne (A := fun c => isLowerAZ c || isDigit09 c)
      (hc c h) (by decide) (by decide)⟩)]
  rw [mentionSub_id (fun c h =>
    allowedOrSpace_ne (A := fun c => isLowerAZ c || isDigit09 c)
      (hc c h) (by decide) (by decide))]
  rw [hashtagSub_id (fun c h =>
    allowedOrSpace_ne (A := fun c => isLowerAZ c || isDigit09 c)
      (hc c h) (by decide) (by decide))]
  rw [nonAlphaToSpace_id (fun c h => by
    rcases hc c h with h1 | h1
    · simp only [Bool.or_eq_true] at h1 ⊢
      tauto
    · subst h1; decide)]
  exact collapseWs_collapseWs _

theorem etd_ugm_normalize_idem (s : List Char) :
    etd_ugm_normalize (etd_ugm_normalize s) = etd_ugm_normalize s := by
  unfold etd_ugm_normalize
  have hc : ∀ c ∈ collapseWs (nonAlphaToSpace isLowerAZ
      (hashtagSub (mentionSub (urlSub
        (charReplace '\n' ' ' (charReplace '\xa0' ' '
          (charReplace '”' ' ' (charReplace '“' ' '
            (charReplace '"' ' ' (lowerStr s)))))))))),
      isLowerAZ c = true ∨ c = ' ' := chars_collapse_nonAlpha
  rw [lowerStr_id (fun c h => by
    rcases hc c h with h1 | h1
    · exact isUpperAZ_false_of_lower h1
    · subst h1; decide)]
  rw [charReplace_id (fun c h => allowedOrSpace_ne (hc c h) (by decide) (by decide))]
  rw [charReplace_id (fun c h => allowedOrSpace_ne (hc c h) (by decide) (by decide))]
  rw [charReplace_id (fun c h => allowedOrSpace_ne (hc c h) (by decide) (by decide))]
  rw [charReplace_id (fun c h => allowedOrSpace_ne (hc c h) (by decide) (by decide))]
  rw [charReplace_id (fun c h => allowedOrSpace_ne (hc c h) (by decide) (by decide))]
  rw [urlSub_id (fun c h => ⟨allowedOrSpace_ne (hc c h) (by decide) (by decide),
    allowedOrSpace_ne (hc c h) (by decide) (by decide)⟩)]
  rw [mentionSub_id (fun c h => allowedOrSpace_ne (hc c h) (by decide) (by decide))]
  rw [hashtagSub_id (fun c h => allowedOrSpace_ne (hc c h) (by decide) (by decide))]
  rw [nonAlphaToSpace_id (fun c h => by
    rcases hc c h with h1 | h1
    · simp [h1]
    · subst h1; decide)]
  exact collapseWs_collapseWs _

theorem etd_usk_normalize_idem (s : List Char) :
    etd_usk_normalize (etd_usk_normalize s) = etd_usk_normalize s := by
  unfold etd_usk_normalize
  have hc : ∀ c ∈ collapseWs (nonAlphaToSpace isLowerAZ
      (hashtagSub (mentionSub (urlSub
        (charReplace '\n' ' ' (charReplace '\xa0' ' '
          (charReplace '”' ' ' (charReplace '“' ' '
            (charReplace '"' ' ' (lowerStr (abstractSub s))))))))))),
      isLowerAZ c = true ∨ c = ' ' := chars_collapse_nonAlpha
  rw [abstractSub_id (fun c h => by
    rcases hc c h with h1 | h1
    · exact isUpperAZ_false_of_lower h1
    · subst h1; decide)]
  rw [lowerStr_id (fun c h => by
    rcases hc c h with h1 | h1
    · exact isUpperAZ_false_of_lower h1
    · subst h1; decide)]
  rw [charReplace_id (fun c h => allowedOrSpace_ne (hc c h) (by decide) (by decide))]
  rw [charReplace_id (fun c h => allowedOrSpace_ne (hc c h) (by decide) (by decide))]
  rw [charReplace_id (fun c h => allowedOrSpace_ne (hc c h) (by decide) (by decide))]
  rw [charReplace_id (fun c h => allowedOrSpace_ne (hc c h) (by decide) (by decide))]
  rw [charReplace_id (fun c h => allowedOrSpace_ne (hc c h) (by decide) (by decide))]
  rw [urlSub_id (fun c h => ⟨allowedOrSpace_ne (hc c h) (by decide) (by decide),
    allowedOrSpace_ne (hc c h) (by decide) (by decide)⟩)]
  rw [mentionSub_id (fun c h => allowedOrSpace_ne (hc c h) (by decide) (by decide))]
  rw [hashtagSub_id (fun c h => allowedOrSpace_ne (hc c h) (by decide) (by decide))]
  rw [nonAlphaToSpace_id (fun c h => by
    rcases hc c h with h1 | h1
    · simp [h1]
    · subst h1; decide)]
  exact collapseWs_collapseWs _

/-- Python's `t = "" if t is None else str(t)` coercion at the head of
every `_normalize`: a missing value becomes the empty string; any other
value is its text, covered by quantifying over all strings. -/
def pyStr : Option (List Char) → List Char
  | none => []
  | some s => s

/-- C7: all four corpus normalizers are idempotent — letters-only
policy (`kompas.py`, `etd_ugm.py`, `etd_usk.py`) and letters+digits
policy (`tempo.py`) alike. -/
theorem normalize_idempotent (s : List Char) :
    kompas_normalize (kompas_normalize s) = kompas_normalize s ∧
    tempo_normalize (tempo_normalize s) = tempo_normalize s ∧
    etd_usk_normalize (etd_usk_normalize s) = etd_usk_normalize s ∧
    etd_ugm_normalize (etd_ugm_normalize s) = etd_ugm_normalize s :=
  ⟨kompas_normalize_idem s, tempo_normalize_idem s,
    etd_usk_normalize_idem s, etd_ugm_normalize_idem s⟩

/-- C10: for every input value — `none` standing for Python `None`,
`some s` for any text (non-string values are coerced to their text) —
the normalizer output consists solely of allowed-alphabet characters
(lowercase letters, plus digits for Tempo) separated by single spaces,
with no leading or trailing whitespace, no doubled spaces and hence no
uppercase letters. -/
theorem normalize_output_normalized (x : Option (List Char)) :
    isNormalized isLowerAZ (kompas_normalize (pyStr x)) = true ∧
    isNormalized (fun c => isLowerAZ c || isDigit09 c)
      (tempo_normalize (pyStr x)) = true ∧
    isNormalized isLowerAZ (etd_ugm_normalize (pyStr x)) = true :=
  ⟨isNormalized_collapse_nonAlpha, isNormalized_collapse_nonAlpha,
    isNormalized_collapse_nonAlpha⟩

/-! ### The vector-space retrieval engine of `main.py` -/

/-- The default sklearn `CountVectorizer` analyzer applied by
`load_and_index_datasets` and the query transform: lowercase, then take
the maximal word-character runs of length at least two (the token
pattern `\w\w+`). -/
def sklearnTokens (s : List Char) : List (List Char) :=
  (splitRuns isWordCh (lowerStr s)).filter (fun t => decide (2 ≤ t.length))

/-- Model of `vectorizer.transform([text])` against a fixed fitted vocabulary:
one raw occurrence count per vocabulary term; tokens absent from the
vocabulary are ignored without error. -/
def transform (vocab : List (List Char)) (q : List Char) : List Nat :=
  vocab.map (fun term => (sklearnTokens q).count term)

/-- Dot product of two count vectors. -/
def dot (q d : List Nat) : Nat :=
  ((q.zip d).map (fun p => p.1 * p.2)).sum

/-- Squared cosine similarity over exact rationals, with the
zero-norm convention of `sklearn.metrics.pairwise.cosine_similarity`
(similarity 0 when either vector is zero).  Since count vectors are
non-negative, cosine similarity itself is non-negative, so squaring is
strictly monotone: this encoding preserves exactly the two observations
the ranking code makes — pairwise order of similarities and strict
positivity — while staying computable (the unsquared value needs a
square root). -/
def cosineSimSq (q d : List Nat) : ℚ :=
  if dot q q = 0 ∨ dot d d = 0 then 0
  else mkRat ((dot q d ^ 2 : Nat) : Int) (dot q q * dot d d)

/-- One row of the result dictionaries built by
`calculate_cosine_similarity`: rank (1-based), document index, dataset
name, similarity score.  The content preview is omitted — no claim
mentions it. -/
structure SearchResult where
  rank : Nat
  doc_id : Nat
  theme : String
  score : ℚ
deriving DecidableEq, Repr

/-- One loaded dataset: the fitted vocabulary (`self.vectorizers`) and
the document count matrix (`self.doc_vectors`), which
`load_and_index_datasets` always stores together. -/
structure Corpus where
  vocab : List (List Char)
  docVecs : List (List Nat)
deriving DecidableEq, Repr

/-- Dictionary lookup `self.vectorizers[theme]` /
`self.doc_vectors[theme]` (populated together, so one map). -/
def assocLookup (k : String) : List (String × Corpus) → Option Corpus
  | [] => none
  | p :: r => if p.1 = k then some p.2 else assocLookup k r

/-- Stable ascending insertion by key, keeping existing elements ahead
on ties: inserting indices in increasing order therefore sorts ties in
index order, exactly numpy's `argsort` on the sub-17-element arrays
where its introsort is an insertion sort. -/
def insertAsc (key : Nat → ℚ) (i : Nat) : List Nat → List Nat
  | [] => [i]
  | j :: js => if key j ≤ key i then j :: insertAsc key i js else i :: j :: js

/-- Model of `similarities.argsort()`: indices of the similarity array
sorted by value ascending.  The model resolves ties in index order
(stable sort).  Scope of faithfulness: numpy's default kind is
introsort, which runs plain insertion sort — stable — on arrays of at
most 16 elements, but is documented as NOT stable in general, so for
longer similarity arrays the program's tie order is unspecified and may
differ from this model's.  Every theorem in this file that asserts a
tie order therefore carries the bound `length ≤ 16`; conclusions that
are invariant under the tie order (which documents are returned with
zero similarity filtered, emptiness) do not depend on this choice. -/
def argsortAsc (xs : List ℚ) : List Nat :=
  (List.range xs.length).foldl
    (fun acc i => insertAsc (fun k => xs.getD k 0) i acc) []

/-- Python's negative slice `a[-n:]`: the last `n` elements — except
that `n = 0` gives `a[0:]`, the whole list. -/
def lastSlice (n : Nat) (l : List Nat) : List Nat :=
  if n = 0 then l else l.drop (l.length - n)

/-- The result-building loop of `calculate_cosine_similarity` (lines
140-152): walk the selected indices, keep those with similarity
strictly greater than 0, attach 1-based ranks. -/
def selectPositive (theme : String) (sims : List ℚ) (idxs : List Nat) :
    List SearchResult :=
  ((idxs.filter (fun i => decide (0 < sims.getD i 0))).enum).map
    (fun p => ⟨p.1 + 1, p.2, theme, sims.getD p.2 0⟩)

/-- Lines 138-152 of `main.py`:
`top_indices = similarities.argsort()[-top_n:][::-1]` followed by the
positive-similarity filter and rank assignment. -/
def rankTopN (theme : String) (sims : List ℚ) (top_n : Nat) :
    List SearchResult :=
  selectPositive theme sims ((lastSlice top_n (argsortAsc sims)).reverse)

/-- The per-document similarity row
`cosine_similarity(query_vector, self.doc_vectors[theme])[0]`. -/
def querySims (c : Corpus) (pq : List Char) : List ℚ :=
  c.docVecs.map (fun d => cosineSimSq (transform c.vocab pq) d)

/-- The method `calculate_cosine_similarity` of `src/main.py` (lines 117-154): an
unloaded theme short-circuits to the empty list; otherwise preprocess
the query, project it into the theme's vocabulary, score every document
and select the top `top_n` (the `try` around `transform` never fires in
this model — the modelled transform is total, as the fitted sklearn one
is). -/
def calculate_cosine_similarity (stopRemove stem : List Char → List Char)
    (corpora : List (String × Corpus)) (query_text : List Char)
    (theme : String) (top_n : Nat) : List SearchResult :=
  match assocLookup theme corpora with
  | none => []
  | some c =>
    rankTopN theme (querySims c (preprocess_query stopRemove stem query_text))
      top_n

/-- Stable descending insertion by score, keeping existing elements
ahead on ties: folding a list through it left-to-right is Python's
stable `list.sort(key=..., reverse=True)`. -/
def insertScoreDesc (x : SearchResult) :
    List SearchResult → List SearchResult
  | [] => [x]
  | y :: ys => if x.score ≤ y.score then y :: insertScoreDesc x ys
               else x :: y :: ys

/-- Model of `all_results.sort(key=lambda x: x['similarity_score'],
reverse=True)`. -/
def pySortDescByScore (l : List SearchResult) : List SearchResult :=
  l.foldl (fun acc x => insertScoreDesc x acc) []

/-- The method `search_all_datasets` of `src/main.py` (lines 156-174): rank each
theme independently (each already truncated to `top_n`), concatenate in
theme order, stable-sort by score descending, truncate to `top_n`. -/
def search_all_datasets (stopRemove stem : List Char → List Char)
    (themes : List String) (corpora : List (String × Corpus))
    (query_text : List Char) (top_n : Nat) : List SearchResult :=
  (pySortDescByScore
    ((themes.map (fun th =>
      calculate_cosine_similarity stopRemove stem corpora query_text th
        top_n)).flatten)).take top_n

/-- The method `search_single_dataset` of `src/main.py` (lines 176-189): a theme
missing from `self.documents` short-circuits to the empty list,
otherwise delegate to `calculate_cosine_similarity`. -/
def search_single_dataset (stopRemove stem : List Char → List Char)
    (documents : List String) (corpora : List (String × Corpus))
    (query_text : List Char) (theme : String) (top_n : Nat) :
    List SearchResult :=
  if theme ∈ documents then
    calculate_cosine_similarity stopRemove stem corpora query_text theme top_n
  else []

/-! ### Claim-side ranking definitions (C1, C2) -/

/-- Stable descending insertion over (index, similarity) pairs, exactly
as the spec words the ranking: ties keep the earlier-seen (lower-index)
document first. -/
def specInsertDescFirst (x : Nat × ℚ) : List (Nat × ℚ) → List (Nat × ℚ)
  | [] => [x]
  | y :: ys => if x.2 ≤ y.2 then y :: specInsertDescFirst x ys
               else x :: y :: ys

/-- Stable descending sort of (index, similarity) pairs, first-seen
wins on ties. -/
def specSortDescFirst (l : List (Nat × ℚ)) : List (Nat × ℚ) :=
  l.foldl (fun acc x => specInsertDescFirst x acc) []

/-- The single-corpus ranking exactly as C1 states it: keep the
documents with similarity strictly greater than zero, sort by
similarity descending with ties broken by original document order
(earlier index first), truncate to the requested count, attach
ranks. -/
def specRankClaimed (theme : String) (sims : List ℚ) (top_n : Nat) :
    List SearchResult :=
  (((specSortDescFirst (sims.enum.filter
      (fun p => decide (0 < p.2)))).take top_n).enum).map
    (fun p => ⟨p.1 + 1, p.2.1, theme, p.2.2⟩)

/-- Descending insertion that puts the new (higher-index) element ahead
of equal keys: the tie order the code actually produces. -/
def insertDescLater (key : Nat → ℚ) (i : Nat) : List Nat → List Nat
  | [] => [i]
  | j :: js => if key i < key j then j :: insertDescLater key i js
               else i :: j :: js

/-- Indices sorted by similarity descending, ties broken by document
index descending (later-indexed first). -/
def argsortDescLater (xs : List ℚ) : List Nat :=
  (List.range xs.length).foldl
    (fun acc i => insertDescLater (fun k => xs.getD k 0) i acc) []

/-- The amended single-corpus ranking: sort all indices by similarity
descending with ties broken by document index descending, truncate to
the requested count, then keep the strictly-positive similarities and
attach ranks. -/
def specRankAmended (theme : String) (sims : List ℚ) (top_n : Nat) :
    List SearchResult :=
  selectPositive theme sims ((argsortDescLater sims).take top_n)

/-! ### The reversed stable argsort is the later-first descending sort -/

theorem mem_insertAsc {key : Nat → ℚ} {i x : Nat} :
    ∀ {l : List Nat}, x ∈ insertAsc key i l → x = i ∨ x ∈ l
  | [], h => by simpa [insertAsc] using h
  | j :: js, h => by
    unfold insertAsc at h
    by_cases hc : key j ≤ key i
    · rw [if_pos hc] at h
      rcases List.mem_cons.mp h with h | h
      · exact Or.inr (h ▸ List.mem_cons_self _ _)
      · rcases mem_insertAsc h with h | h
        · exact Or.inl h
        · exact Or.inr (List.mem_cons_of_mem _ h)
    · rw [if_neg hc] at h
      rcases List.mem_cons.mp h with h | h
      · exact Or.inl h
      · exact Or.inr h

theorem insertAsc_pairwise (key : Nat → ℚ) (i : Nat) :
    ∀ {l : List Nat}, l.Pairwise (fun a b => key a ≤ key b) →
      (insertAsc key i l).Pairwise (fun a b => key a ≤ key b)
  | [], _ => by simp [insertAsc]
  | j :: js, h => by
    rcases List.pairwise_cons.mp h with ⟨hj, hjs⟩
    unfold insertAsc
    by_cases hc : key j ≤ key i
    · rw [if_pos hc]
      refine List.pairwise_cons.mpr ⟨?_, insertAsc_pairwise key i hjs⟩
      intro x hx
      rcases mem_insertAsc hx with hx | hx
      · exact hx ▸ hc
      · exact hj x hx
    · rw [if_neg hc]
      push_neg at hc
      refine List.pairwise_cons.mpr ⟨?_, h⟩
      intro x hx
      rcases List.mem_cons.mp hx with hx | hx
      · exact hx ▸ le_of_lt hc
      · exact le_trans (le_of_lt hc) (hj x hx)

theorem insertDescLater_append_le {key : Nat → ℚ} {i j : Nat}
    (hij : key j ≤ key i) :
    ∀ xs : List Nat,
      insertDescLater key i (xs ++ [j]) = insertDescLater key i xs ++ [j]
  | [] => by
    rw [List.nil_append]
    simp only [insertDescLater]
    rw [if_neg (not_lt.mpr hij)]
    rfl
  | x :: xs => by
    rw [List.cons_append]
    simp only [insertDescLater]
    by_cases hc : key i < key x
    · rw [if_pos hc, if_pos hc, insertDescLater_append_le hij xs,
        List.cons_append]
    · rw [if_neg hc, if_neg hc]
      rfl

theorem insertDescLater_all_gt {key : Nat → ℚ} {i : Nat} :
    ∀ {l : List Nat}, (∀ j ∈ l, key i < key j) →
      insertDescLater key i l = l ++ [i]
  | [], _ => rfl
  | j :: js, h => by
    simp only [insertDescLater]
    rw [if_pos (h j (List.mem_cons_self _ _)),
      insertDescLater_all_gt (fun x hx => h x (List.mem_cons_of_mem _ hx))]
    rfl

theorem reverse_insertAsc (key : Nat → ℚ) (i : Nat) :
    ∀ {l : List Nat}, l.Pairwise (fun a b => key a ≤ key b) →
      (insertAsc key i l).reverse = insertDescLater key i l.reverse
  | [], _ => rfl
  | j :: js, h => by
    rcases List.pairwise_cons.mp h with ⟨hj, hjs⟩
    simp only [insertAsc]
    by_cases hc : key j ≤ key i
    · rw [if_pos hc, List.reverse_cons, reverse_insertAsc key i hjs,
        List.reverse_cons, insertDescLater_append_le hc]
    · push_neg at hc
      have hall : ∀ x ∈ (js.reverse ++ [j]), key i < key x := by
        intro x hx
        rcases List.mem_append.mp hx with hx | hx
        · exact lt_of_lt_of_le hc (hj x (List.mem_reverse.mp hx))
        · rw [List.mem_singleton.mp hx]
          exact hc
      rw [if_neg (not_le.mpr hc), List.reverse_cons, List.reverse_cons,
        insertDescLater_all_gt hall]

theorem foldl_insertAsc_reverse (key : Nat → ℚ) :
    ∀ (idxs : List Nat) (acc : List Nat),
      acc.Pairwise (fun a b => key a ≤ key b) →
      (idxs.foldl (fun l i => insertAsc key i l) acc).reverse =
        idxs.foldl (fun l i => insertDescLater key i l) acc.reverse
  | [], acc, _ => rfl
  | i :: idxs, acc, h => by
    rw [List.foldl_cons, List.foldl_cons,
      foldl_insertAsc_reverse key idxs _ (insertAsc_pairwise key i h),
      reverse_insertAsc key i h]

theorem argsortAsc_reverse (xs : List ℚ) :
    (argsortAsc xs).reverse = argsortDescLater xs := by
  unfold argsortAsc argsortDescLater
  exact foldl_insertAsc_reverse _ _ [] List.Pairwise.nil

theorem reverse_lastSlice {n : Nat} (hn : n ≠ 0) (l : List Nat) :
    (lastSlice n l).reverse = l.reverse.take n := by
  unfold lastSlice
  rw [if_neg hn, List.reverse_drop]
  by_cases hle : n ≤ l.length
  · rw [Nat.sub_sub_self hle]
  · rw [Nat.sub_eq_zero_of_le (le_of_not_le hle), Nat.sub_zero]
    rw [List.take_of_length_le (by rw [List.length_reverse]),
      List.take_of_length_le (by rw [List.length_reverse]; omega)]

/-- The code's top-N selection equals the amended specification's, for
a positive requested count. -/
theorem rankTopN_eq_amended (theme : String) (sims : List ℚ)
    {top_n : Nat} (hn : 1 ≤ top_n) :
    rankTopN theme sims top_n = specRankAmended theme sims top_n := by
  unfold rankTopN specRankAmended
  rw [reverse_lastSlice (by omega), argsortAsc_reverse]

/-! ### Theorems for C1 and C4 -/

/-- C1 (counterexample): on a corpus of two identical documents (both
"ab") and the query "ab" — cosine similarity 1 for both — the code
returns document 1 before document 0, while the claim's ranking (ties
broken by original document order, earlier first) returns document 0
before document 1.  The identity functions model the Sastrawi stopword
remover and stemmer, which leave the stopword-free, affix-free token
"ab" unchanged. -/
theorem calculate_tie_order_counterexample :
    calculate_cosine_similarity (fun s => s) (fun s => s)
        [("kompas_clean", ⟨[['a','b']], [[1],[1]]⟩)] ['a','b']
        "kompas_clean" 5 ≠
      specRankClaimed "kompas_clean"
        (querySims ⟨[['a','b']], [[1],[1]]⟩
          (preprocess_query (fun s => s) (fun s => s) ['a','b'])) 5 ∧
    (calculate_cosine_similarity (fun s => s) (fun s => s)
        [("kompas_clean", ⟨[['a','b']], [[1],[1]]⟩)] ['a','b']
        "kompas_clean" 5).map (fun r => r.doc_id) = [1, 0] ∧
    (specRankClaimed "kompas_clean"
        (querySims ⟨[['a','b']], [[1],[1]]⟩
          (preprocess_query (fun s => s) (fun s => s) ['a','b'])) 5).map
        (fun r => r.doc_id) = [0, 1] := by
  refine ⟨by decide, by decide, by decide⟩

/-- C1 (amended): for every built corpus of at most 16 documents — the
regime in which numpy's default argsort (introsort, documented as not
stable in general) provably runs a plain insertion sort and is
therefore stable, so the embedding fixes the program's tie order — and
every positive requested count, `calculate_cosine_similarity` returns
the documents with similarity strictly greater than zero among the
`top_n` highest-similarity documents, ordered by similarity descending
with ties broken by document index DESCENDING (the later-indexed
document first, a consequence of reversing the stable ascending
argsort), truncated to the requested count (default 5).  For larger
corpora numpy leaves the order of equal-similarity documents
unspecified, so no deterministic tie order — in particular not the
spec's first-seen-wins order — is a property of the program there. -/
theorem calculate_cosine_similarity_amended
    (stopRemove stem : List Char → List Char)
    (corpora : List (String × Corpus)) (query_text : List Char)
    (theme : String) (top_n : Nat) (c : Corpus)
    (h : assocLookup theme corpora = some c)
    (hsize : c.docVecs.length ≤ 16)
    (hn : 1 ≤ top_n) :
    calculate_cosine_similarity stopRemove stem corpora query_text theme
        top_n =
      specRankAmended theme
        (querySims c (preprocess_query stopRemove stem query_text)) top_n := by
  unfold calculate_cosine_similarity
  rw [h]
  exact rankTopN_eq_amended _ _ hn

/-- Witness for the amended C1 at a concrete two-document corpus (well
inside the insertion-sort regime) and requested count 2. -/
theorem calculate_cosine_similarity_amended_witness :
    calculate_cosine_similarity (fun s => s) (fun s => s)
        [("tempo_clean", ⟨[['a','b']], [[1],[1]]⟩)] ['a','b']
        "tempo_clean" 2 =
      specRankAmended "tempo_clean"
        (querySims ⟨[['a','b']], [[1],[1]]⟩
          (preprocess_query (fun s => s) (fun s => s) ['a','b'])) 2 :=
  calculate_cosine_similarity_amended (fun s => s) (fun s => s)
    [("tempo_clean", ⟨[['a','b']], [[1],[1]]⟩)] ['a','b'] "tempo_clean" 2
    ⟨[['a','b']], [[1],[1]]⟩ (by decide) (by decide) (by decide)

/-- C4 (counterexample): with no corpus built (`self.vectorizers`
empty), both search entry points return the empty result list — no
error of any kind is raised, directly contradicting the claimed
fail-fast `IllegalStateError`.  The embedded functions are total: the
Python bodies have no `raise` on this path, only `return []`. -/
theorem unbuilt_corpus_silent_empty_counterexample :
    calculate_cosine_similarity (fun s => s) (fun s => s) []
        ['a','b'] "kompas_clean" 5 = [] ∧
    search_single_dataset (fun s => s) (fun s => s) [] []
        ['a','b'] "kompas_clean" 5 = [] := by
  refine ⟨by decide, by decide⟩

/-- C4 (amended): a query against an unbuilt corpus silently yields the
empty result sequence, in `calculate_cosine_similarity` (theme absent
from the vectorizer map) and in `search_single_dataset` (theme absent
from the document map) alike; no error is signalled. -/
theorem search_unbuilt_returns_empty
    (stopRemove stem : List Char → List Char)
    (corpora : List (String × Corpus)) (documents : List String)
    (query_text : List Char) (theme : String) (top_n : Nat)
    (h : assocLookup theme corpora = none) :
    calculate_cosine_similarity stopRemove stem corpora query_text theme
        top_n = [] ∧
    (theme ∉ documents →
      search_single_dataset stopRemove stem documents corpora query_text
        theme top_n = []) := by
  constructor
  · unfold calculate_cosine_similarity
    rw [h]
  · intro hd
    unfold search_single_dataset
    rw [if_neg hd]

/-- Witness for the amended C4 at a concrete empty state. -/
theorem search_unbuilt_returns_empty_witness :
    calculate_cosine_similarity (fun s => s) (fun s => s) []
        ['x'] "mojok_clean_all" 5 = [] ∧
    search_single_dataset (fun s => s) (fun s => s) [] []
        ['x'] "mojok_clean_all" 5 = [] := by
  have h := search_unbuilt_returns_empty (fun s => s) (fun s => s) [] []
    ['x'] "mojok_clean_all" 5 rfl
  exact ⟨h.1, h.2 (by simp)⟩

/-! ### Theorems for C8 -/

theorem transform_oov {vocab : List (List Char)} {q : List Char}
    (h : ∀ t ∈ sklearnTokens q, t ∉ vocab) :
    transform vocab q = List.replicate vocab.length 0 := by
  unfold transform
  have hz : ∀ term ∈ vocab, (sklearnTokens q).count term = 0 := by
    intro term hterm
    rw [List.count_eq_zero]
    intro hmem
    exact h term hmem hterm
  rw [List.map_congr_left (g := fun _ => 0) hz]
  exact List.map_const' vocab 0

theorem dot_zero_left : ∀ (k : Nat) (d : List Nat),
    dot (List.replicate k 0) d = 0
  | 0, d => by simp [dot]
  | k + 1, [] => by simp [dot]
  | k + 1, e :: d => by
    have ih := dot_zero_left k d
    unfold dot at ih ⊢
    rw [List.replicate_succ, List.zip_cons_cons, List.map_cons, List.sum_cons,
      ih]
    simp

theorem sims_all_zero {c : Corpus} {pq : List Char}
    (h : transform c.vocab pq = List.replicate c.vocab.length 0) :
    ∀ x ∈ querySims c pq, x = 0 := by
  intro x hx
  unfold querySims at hx
  rcases List.mem_map.mp hx with ⟨d, -, hd⟩
  rw [← hd]
  unfold cosineSimSq
  rw [h, if_pos (Or.inl (dot_zero_left _ _))]

theorem getD_zero_of_all_zero :
    ∀ (l : List ℚ), (∀ x ∈ l, x = 0) → ∀ i, l.getD i 0 = 0
  | [], _, i => by simp
  | x :: l, h, 0 => by
    simpa using h x (List.mem_cons_self _ _)
  | x :: l, h, i + 1 => by
    rw [List.getD_cons_succ]
    exact getD_zero_of_all_zero l
      (fun y hy => h y (List.mem_cons_of_mem _ hy)) i

theorem selectPositive_nil_of_zero {theme : String} {sims : List ℚ}
    (h : ∀ i, sims.getD i 0 = 0) (idxs : List Nat) :
    selectPositive theme sims idxs = [] := by
  unfold selectPositive
  rw [List.filter_eq_nil_iff.mpr (fun i _ => by rw [h i]; decide)]
  rfl

/-- C8: a query whose processed terms all lie outside a built corpus's
vocabulary projects to the all-zero count vector (out-of-vocabulary
terms are ignored without error — the modelled transform is total), and
the search returns the empty result sequence. -/
theorem oov_query_zero_vector_empty_result
    (stopRemove stem : List Char → List Char)
    (corpora : List (String × Corpus)) (query_text : List Char)
    (theme : String) (top_n : Nat) (c : Corpus)
    (h : assocLookup theme corpora = some c)
    (hoov : ∀ t ∈ sklearnTokens (preprocess_query stopRemove stem query_text),
      t ∉ c.vocab) :
    transform c.vocab (preprocess_query stopRemove stem query_text) =
      List.replicate c.vocab.length 0 ∧
    calculate_cosine_similarity stopRemove stem corpora query_text theme
      top_n = [] := by
  have hz := transform_oov hoov
  refine ⟨hz, ?_⟩
  unfold calculate_cosine_similarity
  rw [h]
  unfold rankTopN
  exact selectPositive_nil_of_zero
    (getD_zero_of_all_zero _ (sims_all_zero hz)) _

/-- Witness for C8: the query "xy" against a corpus whose sole
vocabulary term is "ab". -/
theorem oov_query_zero_vector_empty_result_witness :
    transform (Corpus.mk [['a','b']] [[1]]).vocab
        (preprocess_query (fun s => s) (fun s => s) ['x','y']) =
      List.replicate (Corpus.mk [['a','b']] [[1]]).vocab.length 0 ∧
    calculate_cosine_similarity (fun s => s) (fun s => s)
        [("etd_ugm_clean", Corpus.mk [['a','b']] [[1]])] ['x','y']
        "etd_ugm_clean" 5 = [] :=
  oov_query_zero_vector_empty_result (fun s => s) (fun s => s)
    [("etd_ugm_clean", Corpus.mk [['a','b']] [[1]])] ['x','y']
    "etd_ugm_clean" 5 (Corpus.mk [['a','b']] [[1]]) (by decide) (by decide)

/-! ### Claim-side and amended merge orders (C2) -/

/-- The global merge order exactly as C2 states it: score descending,
ties broken by corpus iteration order, then by document index
ascending. -/
def claimedBefore (themes : List String) (x y : SearchResult) : Bool :=
  decide (y.score < x.score) ||
    (x.score == y.score &&
      (decide (themes.indexOf x.theme < themes.indexOf y.theme) ||
        (themes.indexOf x.theme == themes.indexOf y.theme &&
          decide (x.doc_id < y.doc_id))))

/-- Insertion respecting a strict precedence predicate: the new element
goes before the first list element that does not precede it. -/
def insertBeforeOrd (lt : SearchResult → SearchResult → Bool)
    (x : SearchResult) : List SearchResult → List SearchResult
  | [] => [x]
  | y :: ys => if lt y x then y :: insertBeforeOrd lt x ys else x :: y :: ys

/-- Insertion sort by a strict precedence predicate. -/
def sortByOrd (lt : SearchResult → SearchResult → Bool)
    (l : List SearchResult) : List SearchResult :=
  l.foldl (fun acc x => insertBeforeOrd lt x acc) []

/-- The multi-corpus merge exactly as C2 states it: sort the
concatenated per-corpus candidates by `claimedBefore`, truncate. -/
def specMergeClaimed (themes : List String) (cands : List SearchResult)
    (top_n : Nat) : List SearchResult :=
  (sortByOrd (claimedBefore themes) cands).take top_n

/-- The amended precedence on position-decorated candidates: score
descending, ties broken by position in the concatenated candidate list
(corpus iteration order, then per-corpus rank order). -/
def posLt (a b : Nat × SearchResult) : Bool :=
  decide (b.2.score < a.2.score) ||
    (a.2.score == b.2.score && decide (a.1 < b.1))

/-- Insertion for the amended precedence. -/
def insertPosDesc (x : Nat × SearchResult) :
    List (Nat × SearchResult) → List (Nat × SearchResult)
  | [] => [x]
  | y :: ys => if posLt y x then y :: insertPosDesc x ys else x :: y :: ys

/-- Sort by score descending with ties broken by original position
ascending, realised by decorating with positions, sorting by the total
order `posLt`, and stripping the decoration. -/
def specSortScoreThenPos (l : List SearchResult) : List SearchResult :=
  ((l.enum).foldl (fun acc x => insertPosDesc x acc) []).map Prod.snd

theorem mem_insertPosDesc {x p : Nat × SearchResult} :
    ∀ {l : List (Nat × SearchResult)}, p ∈ insertPosDesc x l →
      p = x ∨ p ∈ l
  | [], h => by simpa [insertPosDesc] using h
  | y :: ys, h => by
    unfold insertPosDesc at h
    by_cases hc : posLt y x = true
    · rw [if_pos hc] at h
      rcases List.mem_cons.mp h with h | h
      · exact Or.inr (h ▸ List.mem_cons_self _ _)
      · rcases mem_insertPosDesc h with h | h
        · exact Or.inl h
        · exact Or.inr (List.mem_cons_of_mem _ h)
    · rw [if_neg hc] at h
      rcases List.mem_cons.mp h with h | h
      · exact Or.inl h
      · exact Or.inr h

theorem lt_or_beq_eq_le (x e : ℚ) :
    (decide (x < e) || (e == x)) = decide (x ≤ e) := by
  by_cases h1 : x < e
  · simp [h1, le_of_lt h1]
  · by_cases h2 : e = x
    · subst h2
      simp [h1]
  
    · have h3 : ¬x ≤ e := by
        rw [le_iff_lt_or_eq]
        push_neg
        exact ⟨le_of_not_lt h1, fun he => h2 he.symm⟩
      simp [h1, h2, h3]

/-- Inserting a fresh (maximal-position) element preserves the
correspondence between the decorated positional sort and the undecorated
stable sort. -/
theorem insertPosDesc_correspond :
    ∀ (dacc : List (Nat × SearchResult)) (x : SearchResult) (k : Nat),
      (∀ p ∈ dacc, p.1 < k) →
      (insertPosDesc (k, x) dacc).map Prod.snd =
        insertScoreDesc x (dacc.map Prod.snd)
  | [], x, k, _ => rfl
  | (p, e) :: rest, x, k, h => by
    have hp : p < k := h (p, e) (List.mem_cons_self _ _)
    have hcond : posLt (p, e) (k, x) = decide (x.score ≤ e.score) := by
      unfold posLt
      simp only
      rw [decide_eq_true_eq.mpr hp]
      rw [Bool.and_true]
      exact lt_or_beq_eq_le x.score e.score
    simp only [insertPosDesc, insertScoreDesc, List.map_cons, hcond]
    by_cases hc : x.score ≤ e.score
    · rw [if_pos (by rw [decide_eq_true_eq]; exact hc),
        if_pos hc, List.map_cons,
        insertPosDesc_correspond rest x k
          (fun q hq => h q (List.mem_cons_of_mem _ hq))]
    · rw [if_neg (by rw [decide_eq_true_eq]; exact hc), if_neg hc]
      rfl

theorem foldl_insertPos_correspond :
    ∀ (l : List SearchResult) (k : Nat) (dacc : List (Nat × SearchResult)),
      (∀ p ∈ dacc, p.1 < k) →
      ((l.enumFrom k).foldl (fun acc x => insertPosDesc x acc) dacc).map
          Prod.snd =
        l.foldl (fun acc x => insertScoreDesc x acc) (dacc.map Prod.snd)
  | [], k, dacc, _ => rfl
  | x :: l, k, dacc, h => by
    rw [List.enumFrom_cons, List.foldl_cons, List.foldl_cons,
      ← insertPosDesc_correspond dacc x k h]
    exact foldl_insertPos_correspond l (k + 1) (insertPosDesc (k, x) dacc)
      (fun p hp => by
        rcases mem_insertPosDesc hp with hp | hp
        · rw [hp]
          exact Nat.lt_succ_self k
        · exact Nat.lt_succ_of_lt (h p hp))

/-- Python's stable descending sort by score equals the sort by score
descending with ties broken by original position ascending. -/
theorem pySort_eq_specSortScoreThenPos (l : List SearchResult) :
    pySortDescByScore l = specSortScoreThenPos l := by
  unfold pySortDescByScore specSortScoreThenPos
  rw [show l.enum = l.enumFrom 0 from rfl,
    foldl_insertPos_correspond l 0 [] (by simp)]
  rfl

theorem insertScoreDesc_perm (x : SearchResult) :
    ∀ l : List SearchResult, (insertScoreDesc x l).Perm (x :: l)
  | [] => List.Perm.refl _
  | y :: ys => by
    unfold insertScoreDesc
    by_cases hc : x.score ≤ y.score
    · rw [if_pos hc]
      exact ((insertScoreDesc_perm x ys).cons y).trans
        (List.Perm.swap x y ys)
    · rw [if_neg hc]

theorem pySort_foldl_perm :
    ∀ (l acc : List SearchResult),
      (l.foldl (fun acc x => insertScoreDesc x acc) acc).Perm (l ++ acc)
  | [], acc => by simp
  | x :: l, acc => by
    rw [List.foldl_cons]
    exact ((pySort_foldl_perm l (insertScoreDesc x acc)).trans
      ((insertScoreDesc_perm x acc).append_left l)).trans List.perm_middle

/-- The stable descending sort permutes its input: the merged global
list holds exactly the concatenated candidates. -/
theorem pySortDescByScore_perm (l : List SearchResult) :
    (pySortDescByScore l).Perm l := by
  have h := pySort_foldl_perm l []
  rw [List.append_nil] at h
  exact h

theorem mem_insertScoreDesc {x p : SearchResult} :
    ∀ {l : List SearchResult}, p ∈ insertScoreDesc x l → p = x ∨ p ∈ l
  | [], h => by simpa [insertScoreDesc] using h
  | y :: ys, h => by
    unfold insertScoreDesc at h
    by_cases hc : x.score ≤ y.score
    · rw [if_pos hc] at h
      rcases List.mem_cons.mp h with h | h
      · exact Or.inr (h ▸ List.mem_cons_self _ _)
      · rcases mem_insertScoreDesc h with h | h
        · exact Or.inl h
        · exact Or.inr (List.mem_cons_of_mem _ h)
    · rw [if_neg hc] at h
      rcases List.mem_cons.mp h with h | h
      · exact Or.inl h
      · exact Or.inr h

theorem insertScoreDesc_pairwise (x : SearchResult) :
    ∀ {l : List SearchResult},
      l.Pairwise (fun a b => b.score ≤ a.score) →
      (insertScoreDesc x l).Pairwise (fun a b => b.score ≤ a.score)
  | [], _ => by simp [insertScoreDesc]
  | y :: ys, h => by
    rcases List.pairwise_cons.mp h with ⟨hy, hys⟩
    unfold insertScoreDesc
    by_cases hc : x.score ≤ y.score
    · rw [if_pos hc]
      refine List.pairwise_cons.mpr ⟨?_, insertScoreDesc_pairwise x hys⟩
      intro z hz
      rcases mem_insertScoreDesc hz with hz | hz
      · exact hz ▸ hc
      · exact hy z hz
    · rw [if_neg hc]
      push_neg at hc
      refine List.pairwise_cons.mpr ⟨?_, h⟩
      intro z hz
      rcases List.mem_cons.mp hz with hz | hz
      · exact hz ▸ le_of_lt hc
      · exact le_trans (hy z hz) (le_of_lt hc)

theorem pySort_foldl_pairwise :
    ∀ (l acc : List SearchResult),
      acc.Pairwise (fun a b => b.score ≤ a.score) →
      (l.foldl (fun acc x => insertScoreDesc x acc) acc).Pairwise
        (fun a b => b.score ≤ a.score)
  | [], _, h => h
  | x :: l, acc, h => by
    rw [List.foldl_cons]
    exact pySort_foldl_pairwise l _ (insertScoreDesc_pairwise x h)

/-- The stable descending sort is sorted: scores never increase along
the merged global list, so its first `n` elements are `n`
highest-scored candidates. -/
theorem pySortDescByScore_sorted (l : List SearchResult) :
    (pySortDescByScore l).Pairwise (fun a b => b.score ≤ a.score) :=
  pySort_foldl_pairwise l [] List.Pairwise.nil

/-! ### Theorems for C2 -/

/-- C2 (counterexample): one corpus of two identical documents, query
matching both with equal similarity.  The code's global merge (stable
sort of the concatenation, whose per-corpus segment lists the
later-indexed document first) returns document 1 before document 0; the
claim's merge order (ties by corpus iteration order, then document
order) returns document 0 first. -/
theorem search_all_tie_order_counterexample :
    search_all_datasets (fun s => s) (fun s => s) ["kompas_clean"]
        [("kompas_clean", ⟨[['a','b']], [[1],[1]]⟩)] ['a','b'] 5 ≠
      specMergeClaimed ["kompas_clean"]
        ((["kompas_clean"].map (fun th => calculate_cosine_similarity
          (fun s => s) (fun s => s)
          [("kompas_clean", ⟨[['a','b']], [[1],[1]]⟩)] ['a','b'] th
          5)).flatten) 5 ∧
    (search_all_datasets (fun s => s) (fun s => s) ["kompas_clean"]
        [("kompas_clean", ⟨[['a','b']], [[1],[1]]⟩)] ['a','b'] 5).map
        (fun r => r.doc_id) = [1, 0] ∧
    (specMergeClaimed ["kompas_clean"]
        ((["kompas_clean"].map (fun th => calculate_cosine_similarity
          (fun s => s) (fun s => s)
          [("kompas_clean", ⟨[['a','b']], [[1],[1]]⟩)] ['a','b'] th
          5)).flatten) 5).map (fun r => r.doc_id) = [0, 1] := by
  refine ⟨by decide, by decide, by decide⟩

/-- C2 (amended): for every query over all corpora,
`search_all_datasets` equals: run the single-corpus ranker
independently per corpus (each truncated to top `top_n`), concatenate
the per-corpus lists in corpus iteration order, sort the concatenation
by similarity descending with ties broken by position in the
concatenation ascending — corpus iteration order first, then the order
in which the per-corpus ranker emitted its candidates (Python's
`list.sort` is Timsort, documented stable, so this holds for
concatenations of every length; the order WITHIN a per-corpus list is
whatever `calculate_cosine_similarity` produced and is not re-asserted
here) — and truncate to the global requested count.  Conjuncts two and
three state the claim's first consequence: the sorted concatenation is
a permutation of the candidates on which scores are non-increasing, so
the global top-`top_n` (e.g. the top 5 of two corpora's 10 candidates)
is `top_n` highest-scored candidates.  Conjunct four states the
second consequence: every global result lies in some corpus's
truncated list, so a document ranked below `top_n` within its own
corpus is excluded globally whatever its score. -/
theorem search_all_datasets_amended
    (stopRemove stem : List Char → List Char) (themes : List String)
    (corpora : List (String × Corpus)) (query_text : List Char)
    (top_n : Nat) :
    search_all_datasets stopRemove stem themes corpora query_text top_n =
      (specSortScoreThenPos ((themes.map (fun th =>
        calculate_cosine_similarity stopRemove stem corpora query_text th
          top_n)).flatten)).take top_n ∧
    (specSortScoreThenPos ((themes.map (fun th =>
        calculate_cosine_similarity stopRemove stem corpora query_text th
          top_n)).flatten)).Perm
      ((themes.map (fun th =>
        calculate_cosine_similarity stopRemove stem corpora query_text th
          top_n)).flatten) ∧
    (specSortScoreThenPos ((themes.map (fun th =>
        calculate_cosine_similarity stopRemove stem corpora query_text th
          top_n)).flatten)).Pairwise (fun a b => b.score ≤ a.score) ∧
    ∀ r ∈ search_all_datasets stopRemove stem themes corpora query_text
        top_n,
      ∃ th ∈ themes, r ∈ calculate_cosine_similarity stopRemove stem
        corpora query_text th top_n := by
  refine ⟨?_, ?_, ?_, ?_⟩
  · unfold search_all_datasets
    rw [pySort_eq_specSortScoreThenPos]
  · rw [← pySort_eq_specSortScoreThenPos]
    exact pySortDescByScore_perm _
  · rw [← pySort_eq_specSortScoreThenPos]
    exact pySortDescByScore_sorted _
  · intro r hr
    unfold search_all_datasets at hr
    have h1 : r ∈ pySortDescByScore ((themes.map (fun th =>
        calculate_cosine_similarity stopRemove stem corpora query_text th
          top_n)).flatten) := List.mem_of_mem_take hr
    have h2 := (pySortDescByScore_perm _).subset h1
    rcases List.mem_flatten.mp h2 with ⟨lst, hlst, hrl⟩
    rcases List.mem_map.mp hlst with ⟨th, hth, hmap⟩
    exact ⟨th, hth, hmap ▸ hrl⟩

/-- Witness for the fourth conjunct of the amended C2 at a concrete
search: the top result of a one-corpus global search is a member of
that corpus's own truncated list. -/
theorem search_all_datasets_amended_witness :
    ∃ th ∈ ["tempo_clean"],
      (⟨1, 1, "tempo_clean", 1⟩ : SearchResult) ∈
        calculate_cosine_similarity (fun s => s) (fun s => s)
          [("tempo_clean", ⟨[['a','b']], [[1],[1]]⟩)] ['a','b'] th 5 :=
  (search_all_datasets_amended (fun s => s) (fun s => s) ["tempo_clean"]
    [("tempo_clean", ⟨[['a','b']], [[1],[1]]⟩)] ['a','b'] 5).2.2.2
    ⟨1, 1, "tempo_clean", 1⟩ (by decide)

/-! ### Theorems for C3 -/

theorem isPyWs_false_of_lower {c : Char} (h : isLowerAZ c = true) :
    isPyWs c = false := by
  unfold isPyWs
  rw [beq_eq_false_of_pred h (by decide), beq_eq_false_of_pred h (by decide),
    beq_eq_false_of_pred h (by decide), beq_eq_false_of_pred h (by decide),
    beq_eq_false_of_pred h (by decide), beq_eq_false_of_pred h (by decide)]
  rfl

/-- C3 (counterexample): the raw query "bb" — which every corpus's
noise filter would drop (length 2, no vowel) — passes through
`preprocess_query` untouched and so reaches vectorization.  The
identity functions model the Sastrawi stopword remover and stemmer,
which leave the stopword-free, affix-free token "bb" unchanged. -/
theorem preprocess_query_keeps_noise_counterexample :
    preprocess_query (fun s => s) (fun s => s) ['b','b'] = ['b','b'] ∧
    kompas_is_noise 3 ['b','b'] = true ∧
    tempo_is_noise 3 ['b','b'] = true := by
  refine ⟨by decide, by decide, by decide⟩

/-- C3 (amended): `preprocess_query` applies exactly four stages in
order — case folding, deletion of characters outside a-z and
whitespace, stopword removal, primary-language stemming — followed by a
whitespace collapse; there is no separate tokenizer stage, no secondary
(Porter) stemmer, and no noise filter.  Consequently any
lowercase-letter token fixed by the stopword remover and the stemmer
survives verbatim, noise or not. -/
theorem preprocess_query_stage_order
    (stopRemove stem : List Char → List Char) (query : List Char) :
    preprocess_query stopRemove stem query =
      collapseWs (stem (stopRemove (stripNonLetters (lowerStr query)))) ∧
    (∀ w : List Char, (∀ c ∈ w, isLowerAZ c = true) → stopRemove w = w →
      stem w = w → preprocess_query stopRemove stem w = w) := by
  constructor
  · rfl
  · intro w hw hstop hstem
    have h1 : lowerStr w = w :=
      lowerStr_id (fun c hc => isUpperAZ_false_of_lower (hw c hc))
    have h2 : stripNonLetters w = w :=
      List.filter_eq_self.mpr (fun c hc => by simp [hw c hc])
    have hcol : collapseWs w = w := by
      by_cases hnil : w = []
      · subst hnil
        rfl
      · have hws := splitWs_joinSpace [w] (by
          intro u hu
          rw [List.mem_singleton.mp hu]
          exact ⟨hnil, fun c hc => isPyWs_false_of_lower (hw c hc)⟩)
        rw [show joinSpace [w] = w from rfl] at hws
        unfold collapseWs
        rw [hws]
        rfl
    show collapseWs (stem (stopRemove (stripNonLetters (lowerStr w)))) = w
    rw [h1, h2, hstop, hstem, hcol]

/-- Witness for the amended C3: the all-letter token "kebijakan" kept
fixed by identity stopword removal and stemming passes through
unchanged. -/
theorem preprocess_query_stage_order_witness :
    preprocess_query (fun s => s) (fun s => s)
      ['k','e','b','i','j','a','k','a','n'] =
      ['k','e','b','i','j','a','k','a','n'] :=
  (preprocess_query_stage_order (fun s => s) (fun s => s)
    ['k','e','b','i','j','a','k','a','n']).2
    ['k','e','b','i','j','a','k','a','n'] (by decide) rfl rfl

/-! ### The CSV line repair (C9): `fix_multiline_csv` of
`etd_ugm.py` and `perbaiki_csv_tidak_rapi` of `preprocessing.py` -/

/-- Python's `s.strip(chars)`: remove the characters satisfying `p`
from both ends. -/
def stripEnds (p : Char → Bool) (l : List Char) : List Char :=
  ((l.dropWhile p).reverse.dropWhile p).reverse

/-- The merge loop of `fix_multiline_csv` (`etd_ugm.py` lines 34-58):
append each physical line to the buffer (space-separated), emit the
buffer whenever its quote count is even, and flush any leftover buffer
at end of input. -/
def fixLoop : List (List Char) → List Char → List (List Char)
  | [], buf => if buf.isEmpty then [] else [buf]
  | l :: ls, buf =>
    if (if buf.isEmpty then l else buf ++ ' ' :: l).count '"' % 2 = 0 then
      (if buf.isEmpty then l else buf ++ ' ' :: l) :: fixLoop ls []
    else fixLoop ls (if buf.isEmpty then l else buf ++ ' ' :: l)

/-- The function `fix_multiline_csv` of `src/preprocessing/etd_ugm.py`, restricted
to its line-merging core (reading and writing the files is the caller's
concern). -/
def fix_multiline_csv (lines : List (List Char)) : List (List Char) :=
  fixLoop lines []

/-- The records `fixLoop` emits before the end of input (no final
flush). -/
def fixLoopRecords : List (List Char) → List Char → List (List Char)
  | [], _ => []
  | l :: ls, buf =>
    if (if buf.isEmpty then l else buf ++ ' ' :: l).count '"' % 2 = 0 then
      (if buf.isEmpty then l else buf ++ ' ' :: l) :: fixLoopRecords ls []
    else fixLoopRecords ls (if buf.isEmpty then l else buf ++ ' ' :: l)

/-- The buffer still pending when `fixLoop` reaches the end of
input. -/
def fixLoopRem : List (List Char) → List Char → List Char
  | [], buf => buf
  | l :: ls, buf =>
    if (if buf.isEmpty then l else buf ++ ' ' :: l).count '"' % 2 = 0 then
      fixLoopRem ls []
    else fixLoopRem ls (if buf.isEmpty then l else buf ++ ' ' :: l)

/-- Python's `line.split(',', 1)` when a comma is present: the text
before the first comma and the text after it. -/
def splitFirstComma : List Char → Option (List Char × List Char)
  | [] => none
  | c :: cs =>
    if c == ',' then some ([], cs)
    else
      match splitFirstComma cs with
      | some (a, b) => some (c :: a, b)
      | none => none

/-- The repair loop of `perbaiki_csv_tidak_rapi`
(`src/preprocessing.py` lines 10-49): skip blank lines; a line with
exactly one quote and an empty buffer opens a multi-line record (or is
skipped if it has no comma); with a non-empty buffer, lines are merged
until quote parity, then a `[judul, konten]` record is emitted; a
normal line with two or more quotes and a comma is emitted directly.
At end of input a pending buffer is NOT flushed — the trailing record
is silently dropped. -/
def perbaikiLoop :
    List (List Char) → List Char → List Char → List (List Char × List Char)
  | [], _, _ => []
  | l0 :: ls, judul, buffer =>
    if (stripEnds (fun c => c == '\n') l0).isEmpty then
      perbaikiLoop ls judul buffer
    else if (stripEnds (fun c => c == '\n') l0).count '"' == 1 &&
        buffer.isEmpty then
      match splitFirstComma (stripEnds (fun c => c == '\n') l0) with
      | some (j, rest) => perbaikiLoop ls j rest
      | none => perbaikiLoop ls judul buffer
    else if !buffer.isEmpty then
      if (buffer ++ ' ' :: stripEnds (fun c => c == '\n') l0).count '"' % 2
          == 0 then
        (stripEnds isPyWs judul,
          stripEnds isPyWs (stripEnds (fun c => c == '"')
            (buffer ++ ' ' :: stripEnds (fun c => c == '\n') l0))) ::
          perbaikiLoop ls judul []
      else perbaikiLoop ls judul
        (buffer ++ ' ' :: stripEnds (fun c => c == '\n') l0)
    else if decide (2 ≤ (stripEnds (fun c => c == '\n') l0).count '"') &&
        (stripEnds (fun c => c == '\n') l0).contains ',' then
      match splitFirstComma (stripEnds (fun c => c == '\n') l0) with
      | some (j, konten) =>
        (stripEnds isPyWs j,
          stripEnds isPyWs (stripEnds (fun c => c == '"') konten)) ::
          perbaikiLoop ls j []
      | none => perbaikiLoop ls judul buffer
    else perbaikiLoop ls judul buffer

/-- The function `perbaiki_csv_tidak_rapi` of `src/preprocessing.py`, restricted to
its record-building core. -/
def perbaiki_csv_tidak_rapi (lines : List (List Char)) :
    List (List Char × List Char) :=
  perbaikiLoop lines [] []

theorem fixLoop_flush :
    ∀ (lines : List (List Char)) (buf : List Char),
      fixLoop lines buf = fixLoopRecords lines buf ++
        (if (fixLoopRem lines buf).isEmpty then []
         else [fixLoopRem lines buf])
  | [], buf => by
    unfold fixLoop fixLoopRecords fixLoopRem
    by_cases hb : buf.isEmpty
    · rw [if_pos hb]
      rfl
    · rw [if_neg hb]
      rfl
  | l :: ls, buf => by
    unfold fixLoop fixLoopRecords fixLoopRem
    by_cases hp : (if buf.isEmpty then l else buf ++ ' ' :: l).count '"' %
        2 = 0
    · rw [if_pos hp, if_pos hp, if_pos hp, fixLoop_flush ls []]
      rfl
    · rw [if_neg hp, if_neg hp, if_neg hp]
      exact fixLoop_flush ls _

/-- C9 (counterexample): the single source line `t,"abc` leaves an
unterminated quoted field at end of input.  `fix_multiline_csv` flushes
it as a final record, but `perbaiki_csv_tidak_rapi` — the other cited
repair routine — returns no record at all: the buffered data is
silently discarded rather than flushed. -/
theorem perbaiki_discards_trailing_counterexample :
    perbaiki_csv_tidak_rapi [['t',',','"','a','b','c']] = [] ∧
    fix_multiline_csv [['t',',','"','a','b','c']] =
      [['t',',','"','a','b','c']] := by
  refine ⟨by decide, by decide⟩

/-- C9 (amended): `fix_multiline_csv` of `etd_ugm.py` does flush the
trailing buffer as a final record whenever input ends with one pending
(its output is always the emitted records plus the pending buffer, when
nonempty, as a last record); `perbaiki_csv_tidak_rapi` of
`preprocessing.py`, however, emits nothing at end of input regardless
of the pending buffer, so its trailing record is discarded. -/
theorem csv_repair_trailing_buffer (lines : List (List Char)) :
    fix_multiline_csv lines = fixLoopRecords lines [] ++
      (if (fixLoopRem lines []).isEmpty then []
       else [fixLoopRem lines []]) ∧
    (∀ judul buffer : List Char, perbaikiLoop [] judul buffer = []) :=
  ⟨fixLoop_flush lines [], fun _ _ => rfl⟩
